import Mathlib

/-!
# AlgoCrawl — verification of the exploration/state-dedup engine

Shallow embedding of the crawler's frontier (`UrlQueue`), interaction ledger
(`InteractionTracker`), outcome classification and dynamic-depth driver
(`elementInteractor.ts`), form-pass gate (`formHandler.ts`) and configuration
validation (`configLoader.ts`).

The URL platform (`new URL`, `URLSearchParams`) is modelled for the fragment
the crawler exercises: absolute URLs of shape `scheme://host[/path][?query][#fragment]`
with ASCII case folding, no userinfo/port, no dot-segment removal and no
percent-encoding.  Hostnames and schemes are lowercased during parsing, as the
platform does.  `URLSearchParams` is modelled as splitting on `&`, pairing at
the first `=`, skipping empty chunks, and joining back with `&`/`=`;
`Array.prototype.sort` with a key comparator is modelled as a stable insertion
sort by the key's order.
-/

namespace AlgoCrawl

/-- ASCII lowercasing table, modelling `String.prototype.toLowerCase` on the
ASCII letters (the only case folding the crawler's URLs rely on). -/
def upperLowerPairs : List (Char × Char) :=
  [('A','a'),('B','b'),('C','c'),('D','d'),('E','e'),('F','f'),('G','g'),
   ('H','h'),('I','i'),('J','j'),('K','k'),('L','l'),('M','m'),('N','n'),
   ('O','o'),('P','p'),('Q','q'),('R','r'),('S','s'),('T','t'),('U','u'),
   ('V','v'),('W','w'),('X','x'),('Y','y'),('Z','z')]

/-- Lowercase one character, ASCII-only model of JS `toLowerCase`. -/
def jsToLower (c : Char) : Char :=
  match upperLowerPairs.find? (fun p => p.1 = c) with
  | some p => p.2
  | none => c

/-- Characters that end the host component of a URL. -/
def hostStop (c : Char) : Bool := c = '/' || c = '?' || c = '#'

/-- Parsed URL components (the `URL` object of the platform, restricted to the
fragment modelled here).  `query`/`frag` are `none` when `?`/`#` is absent;
`some ""` models a present-but-empty query/fragment, which the platform keeps
in the serialization. -/
structure UrlParts where
  scheme : List Char
  host : List Char
  path : List Char
  query : Option (List Char)
  frag : Option (List Char)
deriving DecidableEq, Repr

/-- Query/fragment tail of a parse, starting at the first `?` or `#`. -/
def parseQF (rest : List Char) : Option (List Char) × Option (List Char) :=
  match rest with
  | '?' :: r =>
    let q := r.takeWhile (fun c => c ≠ '#')
    match r.dropWhile (fun c => c ≠ '#') with
    | _ :: f => (some q, some f)
    | [] => (some q, none)
  | '#' :: f => (none, some f)
  | _ => (none, none)

/-- Model of `new URL(…)`: parse an absolute `scheme://host…` URL, lowercasing
scheme and host as the platform does; `none` models the constructor throwing. -/
def parseUrlAux (l : List Char) : Option UrlParts :=
  let sch := l.takeWhile Char.isAlpha
  let rest := l.dropWhile Char.isAlpha
  if sch.isEmpty then none else
  match rest with
  | ':' :: '/' :: '/' :: r2 =>
    let host := r2.takeWhile (fun c => ¬ hostStop c)
    let r3 := r2.dropWhile (fun c => ¬ hostStop c)
    if host.isEmpty then none else
    match r3 with
    | '/' :: _ =>
      let p := r3.takeWhile (fun c => c ≠ '?' && c ≠ '#')
      let r4 := r3.dropWhile (fun c => c ≠ '?' && c ≠ '#')
      let qf := parseQF r4
      some { scheme := sch.map jsToLower, host := host.map jsToLower,
             path := p, query := qf.1, frag := qf.2 }
    | _ =>
      let qf := parseQF r3
      some { scheme := sch.map jsToLower, host := host.map jsToLower,
             path := ['/'], query := qf.1, frag := qf.2 }
  | _ => none

def parseUrl (s : String) : Option UrlParts := parseUrlAux s.data

/-- The `?query#fragment` tail of a serialized URL. -/
def qfChars (q f : Option (List Char)) : List Char :=
  (match q with | some qs => '?' :: qs | none => []) ++
  (match f with | some fs => '#' :: fs | none => [])

/-- Model of `url.toString()` for the modelled fragment. -/
def serializeParts (u : UrlParts) : List Char :=
  u.scheme ++ ':' :: '/' :: '/' :: u.host ++ u.path ++ qfChars u.query u.frag

/-- `.replace(/\/$/, '')` on the full serialized URL: strip one trailing `/`. -/
def finalStripSlash (l : List Char) : List Char :=
  match l.getLast? with
  | some '/' => l.dropLast
  | _ => l

/-- `.replace(/\/+/g, '/')`: collapse runs of `/`.  The boolean tracks whether
the previously emitted character was a slash. -/
def collapseAux : Bool → List Char → List Char
  | _, [] => []
  | prev, c :: cs =>
    if c = '/' then
      if prev then collapseAux true cs else '/' :: collapseAux true cs
    else c :: collapseAux false cs

def collapseSlashes (l : List Char) : List Char := collapseAux false l

/-- `.replace(/\/+$/, '')`: drop the maximal trailing run of `/`. -/
def dropTrailingSlashes : List Char → List Char
  | [] => []
  | c :: cs =>
    match dropTrailingSlashes cs with
    | [] => if c = '/' then [] else [c]
    | res => c :: res

/-- `.replace(/^\/+/, '/')`: collapse a leading run of `/` to a single `/`. -/
def ensureLeadingSlash (l : List Char) : List Char :=
  match l with
  | '/' :: rest => '/' :: rest.dropWhile (fun c => c = '/')
  | other => other

/-- The default-document suffixes of
`/\/(index|default)\.(php|html|htm|asp|aspx)$/i` (lowercase). -/
def defaultDocSuffixes : List (List Char) :=
  ["/index.php", "/index.html", "/index.htm", "/index.asp", "/index.aspx",
   "/default.php", "/default.html", "/default.htm", "/default.asp",
   "/default.aspx"].map String.data

/-- `.replace(/\/(index|default)\.(php|html|htm|asp|aspx)$/i, '/')`:
case-insensitively strip a default-document suffix, leaving a trailing `/`. -/
def stripDefaultDoc (l : List Char) : List Char :=
  match defaultDocSuffixes.find? (fun s => s.isSuffixOf (l.map jsToLower)) with
  | some s => l.take (l.length - s.length) ++ ['/']
  | none => l

/-- The pathname pipeline of `UrlQueue.normalizeUrl` (urlQueue.ts:58-63). -/
def processPath (p : List Char) : List Char :=
  stripDefaultDoc (ensureLeadingSlash (dropTrailingSlashes (collapseSlashes p)))

/-- Assigning `url.pathname`: an empty path serializes as `/`. -/
def setPathname (p : List Char) : List Char := if p.isEmpty then ['/'] else p

/-- Split a raw query string on `&` (model of the `URLSearchParams` parser's
chunking). -/
def splitAmp : List Char → List (List Char)
  | [] => [[]]
  | c :: cs =>
    if c = '&' then [] :: splitAmp cs
    else
      match splitAmp cs with
      | g :: gs => (c :: g) :: gs
      | [] => [[c]]

/-- One `k=v` chunk: pair at the first `=`; a chunk without `=` gets value `""`. -/
def parsePairChars (piece : List Char) : String × String :=
  (⟨piece.takeWhile (fun c => c ≠ '=')⟩,
   match piece.dropWhile (fun c => c ≠ '=') with
   | _ :: v => (⟨v⟩ : String)
   | [] => "")

/-- `Array.from(new URLSearchParams(q).entries())`: empty chunks are skipped. -/
def parseParams (q : List Char) : List (String × String) :=
  ((splitAmp q).filter (fun g => ¬ g.isEmpty)).map parsePairChars

/-- `new URLSearchParams(pairs).toString()` for the modelled fragment. -/
def serializeParams : List (String × String) → List Char
  | [] => []
  | [p] => p.1.data ++ '=' :: p.2.data
  | p :: ps => p.1.data ++ '=' :: p.2.data ++ '&' :: serializeParams ps

/-- `.sort(([a], [b]) => a.localeCompare(b))`: stable sort by key. -/
def sortParams (l : List (String × String)) : List (String × String) :=
  l.insertionSort (fun p q => p.1 ≤ q.1)

/-- The two normalization switches of the `UrlQueue` constructor. -/
structure NormCfg where
  ignoreQueryParams : Bool
  ignoreHashFragments : Bool
deriving DecidableEq, Repr

/-- Query handling of `normalizeUrl` (urlQueue.ts:66-75): assigning
`url.search` an empty string removes the query entirely. -/
def normalizeQuery (cfg : NormCfg) (q : Option (List Char)) : Option (List Char) :=
  if cfg.ignoreQueryParams then none
  else
    let qs := serializeParams (sortParams (parseParams (q.getD [])))
    if qs.isEmpty then none else some qs

/-- `UrlQueue.normalizeUrl` (urlQueue.ts:50-86) at the character-list level.
A string that fails to parse is returned unchanged. -/
def normalizeChars (cfg : NormCfg) (l : List Char) : List Char :=
  match parseUrlAux l with
  | none => l
  | some u =>
    finalStripSlash (serializeParts
      { scheme := u.scheme
        host := u.host.map jsToLower
        path := setPathname (processPath u.path)
        query := normalizeQuery cfg u.query
        frag := if cfg.ignoreHashFragments then none else u.frag })

/-- `UrlQueue.normalizeUrl` as a string transformer. -/
def normalizeUrl (cfg : NormCfg) (s : String) : String :=
  ⟨normalizeChars cfg s.data⟩

/-! ## The URL frontier (`UrlQueue`, urlQueue.ts) -/

/-- JS `Set.prototype.add`: insertion-ordered, deduplicating. -/
def addSet (l : List String) (x : String) : List String :=
  if l.contains x then l else l ++ [x]

/-- JS `Map.prototype.set` on an association list. -/
def setDepth : List (String × Nat) → String → Nat → List (String × Nat)
  | [], k, d => [(k, d)]
  | (k', d') :: rest, k, d =>
    if k' = k then (k, d) :: rest else (k', d') :: setDepth rest k d

/-- The `UrlQueue` class: configuration plus the three private collections. -/
structure UrlQueue where
  maxDepth : Nat
  maxPagesPerDomain : Nat
  allowedDomains : List String
  ignoreQueryParams : Bool
  ignoreHashFragments : Bool
  queue : List String
  visited : List String
  currentDepth : List (String × Nat)
deriving DecidableEq, Repr

/-- The normalization switches a `UrlQueue` passes to `normalizeUrl`. -/
def UrlQueue.cfg (q : UrlQueue) : NormCfg :=
  ⟨q.ignoreQueryParams, q.ignoreHashFragments⟩

/-- A freshly constructed `UrlQueue`. -/
def UrlQueue.init (maxDepth maxPagesPerDomain : Nat) (allowedDomains : List String)
    (ignoreQueryParams ignoreHashFragments : Bool) : UrlQueue :=
  ⟨maxDepth, maxPagesPerDomain, allowedDomains, ignoreQueryParams,
   ignoreHashFragments, [], [], []⟩

/-- `UrlQueue.shouldProcessUrl` (urlQueue.ts:100-140).  Note that it
re-normalizes its (already normalized) argument for the membership tests, and
that `new URL` throwing is the `catch` branch returning `false`. -/
def UrlQueue.shouldProcessUrl (q : UrlQueue) (url : String) (depth : Nat) : Bool :=
  let normalizedUrl := normalizeUrl q.cfg url
  if q.visited.contains normalizedUrl || q.queue.contains normalizedUrl then false
  else if decide (depth > q.maxDepth) then false
  else
    match parseUrl url with
    | none => false
    | some pu =>
      if ¬ q.allowedDomains.contains ⟨pu.host⟩ then false
      else if q.visited.any (fun v =>
          match parseUrl v with
          | some vp => vp.host == pu.host && vp.path == pu.path
          | none => false) then false
      else decide ((q.visited.filter (fun v =>
          match parseUrl v with
          | some vp => vp.host == pu.host
          | none => false)).length < q.maxPagesPerDomain)

/-- `UrlQueue.add` (urlQueue.ts:16-24): returns the boolean result and the
updated queue. -/
def UrlQueue.add (q : UrlQueue) (url : String) (depth : Nat) : Bool × UrlQueue :=
  let normalizedUrl := normalizeUrl q.cfg url
  if q.shouldProcessUrl normalizedUrl depth then
    (true, { q with queue := addSet q.queue normalizedUrl,
                    currentDepth := setDepth q.currentDepth normalizedUrl depth })
  else (false, q)

/-- `UrlQueue.next` (urlQueue.ts:26-35).  The first queued value is taken;
`if (!nextValue)` means a falsy (empty-string) head returns `null` without
dequeuing. -/
def UrlQueue.next (q : UrlQueue) : Option String × UrlQueue :=
  match q.queue with
  | [] => (none, q)
  | x :: rest =>
    if x = "" then (none, q)
    else (some x, { q with queue := rest, visited := addSet q.visited x })

/-- `UrlQueue.getCurrentDepth` (urlQueue.ts:37-39); `… || 0`. -/
def UrlQueue.getCurrentDepth (q : UrlQueue) (url : String) : Nat :=
  (q.currentDepth.lookup (normalizeUrl q.cfg url)).getD 0

/-- `UrlQueue.hasBeenVisited` (urlQueue.ts:41-48). -/
def UrlQueue.hasBeenVisited (q : UrlQueue) (url : String) : Bool :=
  q.visited.contains (normalizeUrl q.cfg url)

/-- A call to the public mutating interface of `UrlQueue`. -/
inductive QueueOp where
  | add (url : String) (depth : Nat)
  | next
deriving DecidableEq, Repr

/-- Run a sequence of `add`/`next` calls. -/
def runOps (q : UrlQueue) : List QueueOp → UrlQueue
  | [] => q
  | QueueOp.add u d :: rest => runOps (q.add u d).2 rest
  | QueueOp.next :: rest => runOps q.next.2 rest

/-- `isUrlAllowed` (urlUtils.ts:14-26). -/
def isUrlAllowed (url : String) (allowedDomains : List String) : Bool :=
  match parseUrl url with
  | none => false
  | some pu =>
    allowedDomains.any (fun domain =>
      pu.host == domain.data ||
      pu.host == ("www." ++ domain).data ||
      ('.' :: domain.data).isSuffixOf pu.host)

/-- The cross-registration the Interaction Executor performs after an
in-scope navigation (elementInteractor.ts:605-620): `urlQueue.add` at
`getCurrentDepth(startUrl) + 1`, then a direct insertion of the normalized
URL into the private `visited` set (`(urlQueue as any).visited.add`). -/
def crossRegister (q : UrlQueue) (newUrl startUrl : String) : UrlQueue :=
  let skippedDueToScope := ¬ isUrlAllowed newUrl q.allowedDomains
  if ¬ skippedDueToScope && ¬ q.hasBeenVisited newUrl then
    let q1 := (q.add newUrl (q.getCurrentDepth startUrl + 1)).2
    { q1 with visited := addSet q1.visited (normalizeUrl q1.cfg newUrl) }
  else q

/-! ## The interaction ledger (`InteractionTracker`, interactionTracker.ts) -/

/-- The `InteractionTracker` class. -/
structure InteractionTracker where
  interactedForms : List String
  interactedElements : List String
  visitedUrls : List String
deriving DecidableEq, Repr

def InteractionTracker.init : InteractionTracker := ⟨[], [], []⟩

/-- The tracker's private `normalizeUrl` (interactionTracker.ts:47-57): strip
query string and hash, keep everything else (no trailing-slash stripping). -/
def trackerNormalizeUrl (url : String) : String :=
  match parseUrl url with
  | none => url
  | some u => ⟨serializeParts { u with query := none, frag := none }⟩

/-- `createUniqueFormId` (interactionTracker.ts:25-27). -/
def createUniqueFormId (formIdentifier url : String) : String :=
  url ++ "#" ++ formIdentifier

/-- `addVisitedUrl` (interactionTracker.ts:39-41). -/
def InteractionTracker.addVisitedUrl (t : InteractionTracker) (url : String) :
    InteractionTracker :=
  { t with visitedUrls := addSet t.visitedUrls (trackerNormalizeUrl url) }

/-- `addInteractedForm` (interactionTracker.ts:9-13): records the unique
`url#formId` and also marks the URL visited. -/
def InteractionTracker.addInteractedForm (t : InteractionTracker)
    (formIdentifier url : String) : InteractionTracker :=
  let t' := { t with
    interactedForms := addSet t.interactedForms (createUniqueFormId formIdentifier url) }
  t'.addVisitedUrl url

/-- `formIdentifier.replace(/[<>]/g, '')`. -/
def removeAngles (f : String) : String :=
  ⟨f.data.filter (fun c => c ≠ '<' && c ≠ '>')⟩

/-- Does `hay` start with `pat`? -/
def listStartsWith : List Char → List Char → Bool
  | _, [] => true
  | [], _ :: _ => false
  | h :: hs, p :: ps => h = p && listStartsWith hs ps

/-- Does `pat` occur somewhere in `hay`? -/
def containsSubstrAux : List Char → List Char → Bool
  | [], pat => pat.isEmpty
  | h :: hs, pat => listStartsWith (h :: hs) pat || containsSubstrAux hs pat

/-- JS `String.prototype.includes`: substring containment. -/
def containsSubstr (hay pat : String) : Bool := containsSubstrAux hay.data pat.data

/-- `hasFormBeenInteracted` (interactionTracker.ts:15-23): exact
`url#formId` hit, or substring containment of the angle-stripped identifier
in any recorded unique id. -/
def InteractionTracker.hasFormBeenInteracted (t : InteractionTracker)
    (formIdentifier url : String) : Bool :=
  if t.interactedForms.contains (createUniqueFormId formIdentifier url) then true
  else t.interactedForms.any (fun id => containsSubstr id (removeAngles formIdentifier))

/-- `hasUrlBeenVisited` (interactionTracker.ts:43-45). -/
def InteractionTracker.hasUrlBeenVisited (t : InteractionTracker) (url : String) : Bool :=
  t.visitedUrls.contains (trackerNormalizeUrl url)

/-! ## The form-pass gate (`interactWithForms`, formHandler.ts:46-63) -/

/-- Shape of one `FormInteractionResult`. -/
structure FormInteractionResultShape where
  formId : String
  success : Bool
  skipped : Bool
  skippedReason : Option String
  fields : List String
deriving DecidableEq, Repr

/-- The single result `interactWithForms` returns for an already-processed
page (formHandler.ts:54-63). -/
def pageFormsSkipped : FormInteractionResultShape :=
  { formId := "page_forms", success := true, skipped := true,
    skippedReason := some "URL already processed", fields := [] }

/-- `interactWithForms` at the granularity the ledger controls: if the current
URL was already visited per the tracker, a single skipped result is returned
before any form is touched; otherwise the per-form processing runs (its
browser-driven results are abstracted as the `processForms` argument). -/
def interactWithForms (t : InteractionTracker) (currentUrl : String)
    (processForms : List FormInteractionResultShape) :
    List FormInteractionResultShape :=
  if t.hasUrlBeenVisited currentUrl then [pageFormsSkipped] else processForms

/-! ## Outcome classification and the dynamic-depth driver (elementInteractor.ts) -/

/-- `ClickableElement` (the fields element identity is derived from). -/
structure ClickableElement where
  type : String
  text : String
  selector : String
  interactiveReason : Option (List String)
deriving DecidableEq, Repr

/-- `createElementIdentifier` (elementInteractor.ts:711-721):
`[type, text, selector, reasons.join(',')].filter(Boolean).join('|')`. -/
def createElementIdentifier (e : ClickableElement) : String :=
  String.intercalate "|"
    ([e.type, e.text, e.selector,
      (e.interactiveReason.map (String.intercalate ",")).getD ""].filter
        (fun s => ¬ s.isEmpty))

/-- The result record of one `interactWithElement` call (the fields the
outcome classification sets). -/
structure InteractionResultShape where
  success : Bool
  causedNavigation : Bool
  newUrl : Option String
  skippedDueToScope : Option Bool
  ajaxResponses : Option Nat
  dynamicChangesDetected : Option Bool
  newElementsFound : Option (List ClickableElement)
deriving DecidableEq, Repr

/-- Which of the three success return sites of
elementInteractor.ts:586-646 produced the result. -/
inductive OutcomeTag where
  | successDynamic
  | successWithNavigation
  | successPlain
deriving DecidableEq, Repr

/-- The outcome classification of `interactWithElement` after the click
settles (elementInteractor.ts:586-646): `newElements` is what the post-click
re-classification found, `ajaxCount` how many AJAX responses were captured,
`newUrl` the page URL after the click.  The navigation branch mutates the
frontier through `crossRegister`. -/
def classifyOutcome (q : UrlQueue) (startUrl newUrl : String) (ajaxCount : Nat)
    (newElements : List ClickableElement) :
    OutcomeTag × InteractionResultShape × UrlQueue :=
  let causedNavigation : Bool := newUrl ≠ startUrl
  if newElements.length > 0 && (ajaxCount > 0 || ¬ causedNavigation) then
    (OutcomeTag.successDynamic,
     { success := true, causedNavigation := false, newUrl := none,
       skippedDueToScope := none,
       ajaxResponses := if ajaxCount > 0 then some ajaxCount else none,
       dynamicChangesDetected := some true,
       newElementsFound := some newElements }, q)
  else if causedNavigation && ¬ newUrl.contains '#' then
    (OutcomeTag.successWithNavigation,
     { success := true, causedNavigation := true, newUrl := some newUrl,
       skippedDueToScope := some (¬ isUrlAllowed newUrl q.allowedDomains),
       ajaxResponses := if ajaxCount > 0 then some ajaxCount else none,
       dynamicChangesDetected := some true,
       newElementsFound := none }, crossRegister q newUrl startUrl)
  else
    (OutcomeTag.successPlain,
     { success := true, causedNavigation := false, newUrl := none,
       skippedDueToScope := none,
       ajaxResponses := if ajaxCount > 0 then some ajaxCount else none,
       dynamicChangesDetected := some true,
       newElementsFound := if newElements.length > 0 then some newElements else none }, q)

/-- What one `interactWithElement` call reports to the driver. -/
structure InteractionResultM where
  success : Bool
  newElementsFound : List ClickableElement
deriving DecidableEq, Repr

/-- State of the `interactWithElements` loop (elementInteractor.ts:665-709):
the work queue, `processedElements`, `previousElements`, the invocation
counter and the trace of elements actually handed to `interactWithElement`. -/
structure DriverState where
  queue : List ClickableElement
  processed : List String
  seen : List String
  idx : Nat
  invoked : List ClickableElement
deriving Repr

/-- `result.newElementsFound.filter(e => !previousElements.has(key) &&
!processedElements.has(key))` — the genuinely new elements. -/
def trulyNewOf (seen processed : List String) (found : List ClickableElement) :
    List ClickableElement :=
  found.filter (fun e =>
    ¬ seen.contains (createElementIdentifier e) &&
    ¬ processed.contains (createElementIdentifier e))

/-- One processed element of the driver loop body, for an element whose key is
not yet in `processedElements`; `st.queue` already holds the remaining
siblings.  The oracle models the per-index `interactWithElement` result. -/
def driverStep (oracle : Nat → InteractionResultM) (st : DriverState)
    (e : ClickableElement) : DriverState :=
  let key := createElementIdentifier e
  let processed' := addSet st.processed key
  let r := oracle st.idx
  if r.success && r.newElementsFound.length > 0 then
    let trulyNew := trulyNewOf st.seen processed' r.newElementsFound
    { queue := trulyNew ++ st.queue,
      processed := processed',
      seen := trulyNew.foldl (fun s x => addSet s (createElementIdentifier x)) st.seen,
      idx := st.idx + 1,
      invoked := st.invoked ++ [e] }
  else
    { st with processed := processed', idx := st.idx + 1, invoked := st.invoked ++ [e] }

/-- The `while (elementsToProcess.length > 0)` loop, fuelled (the source loop
terminates only through dedup convergence on the finite page). -/
def runDriver (oracle : Nat → InteractionResultM) : Nat → DriverState → DriverState
  | 0, st => st
  | fuel + 1, st =>
    match st.queue with
    | [] => st
    | e :: rest =>
      if st.processed.contains (createElementIdentifier e) then
        runDriver oracle fuel { st with queue := rest }
      else
        runDriver oracle fuel (driverStep oracle { st with queue := rest } e)

/-- `interactWithElements` entry state: work queue seeded with the initial
classification, `previousElements` seeded with their keys. -/
def initDriver (elements : List ClickableElement) : DriverState :=
  { queue := elements, processed := [], seen := elements.map createElementIdentifier,
    idx := 0, invoked := [] }

/-! ## Configuration validation (configLoader.ts) -/

/-- `CrawlerConfig` as validation sees it: `none` is an absent (undefined)
field.  Numeric fields are JS numbers, modelled as integers. -/
structure CrawlerConfig where
  startUrl : Option String
  allowedDomains : Option (List String)
  maxDepth : Option Int
  maxPagesPerDomain : Option Int
  timeout : Option Int
  requestDelay : Option Int
  maxConcurrentRequests : Option Int
  frameworkTimeout : Option Int
  retryDelay : Option Int
  networkIdleTime : Option Int
  logLevel : Option String
deriving DecidableEq, Repr

/-- JS `x <= k` where `x` may be `undefined`: comparisons with `undefined`
are false. -/
def jsLE (x : Option Int) (k : Int) : Bool :=
  match x with
  | some v => decide (v ≤ k)
  | none => false

/-- JS `x < k` where `x` may be `undefined`. -/
def jsLT (x : Option Int) (k : Int) : Bool :=
  match x with
  | some v => decide (v < k)
  | none => false

/-- The `validLogLevels.includes(config.logLevel)` test of configLoader.ts:49-52;
an absent `logLevel` is not in the list. -/
def logLevelValid (c : CrawlerConfig) : Bool :=
  match c.logLevel with
  | some l => ["debug", "info", "warn", "error"].contains l
  | none => false

/-- `validateConfig` (configLoader.ts:18-53), check for check in source
order.  `new URL(config.startUrl)` throwing is modelled by `parseUrl`
returning `none` (at this point `startUrl` is present). -/
def validateConfig (c : CrawlerConfig) : Except String Unit :=
  if c.startUrl.isNone then .error "Missing required config field: startUrl"
  else if c.allowedDomains.isNone then .error "Missing required config field: allowedDomains"
  else if c.maxDepth.isNone then .error "Missing required config field: maxDepth"
  else if c.maxPagesPerDomain.isNone then .error "Missing required config field: maxPagesPerDomain"
  else if c.timeout.isNone then .error "Missing required config field: timeout"
  else if jsLE c.maxDepth 0 then .error "maxDepth must be positive"
  else if jsLE c.maxPagesPerDomain 0 then .error "maxPagesPerDomain must be positive"
  else if jsLE c.timeout 0 then .error "timeout must be positive"
  else if jsLT c.requestDelay 0 then .error "requestDelay cannot be negative"
  else if jsLE c.maxConcurrentRequests 0 then .error "maxConcurrentRequests must be positive"
  else if (parseUrl (c.startUrl.getD "")).isNone then .error "Invalid startUrl"
  else if !(logLevelValid c) then .error "Invalid logLevel"
  else .ok ()

/-- `loadConfig` (configLoader.ts:4-16) after the file has been read and
parsed: validate, then return the configuration unchanged. -/
def loadConfig (c : CrawlerConfig) : Except String CrawlerConfig :=
  match validateConfig c with
  | .ok () => .ok c
  | .error e => .error ("Failed to load config: " ++ e)

/-- The exclusivity invariant together with the queue's set-ness. -/
def frontierInv (q : UrlQueue) : Prop :=
  q.queue.Nodup ∧ ∀ x ∈ q.queue, x ∉ q.visited

/-- Modelled from the spec's validation contract, amended to the checks the
code performs: required fields present; `maxDepth`, `maxPagesPerDomain`,
`timeout`, `maxConcurrentRequests` positive when present; `requestDelay`
nonnegative when present; `startUrl` parses; `logLevel` valid.
`frameworkTimeout`, `retryDelay` and `networkIdleTime` are never checked. -/
def validateConfigSpec (c : CrawlerConfig) : Bool :=
  c.startUrl.isSome && c.allowedDomains.isSome && c.maxDepth.isSome &&
  c.maxPagesPerDomain.isSome && c.timeout.isSome &&
  !(jsLE c.maxDepth 0) && !(jsLE c.maxPagesPerDomain 0) && !(jsLE c.timeout 0) &&
  !(jsLT c.requestDelay 0) && !(jsLE c.maxConcurrentRequests 0) &&
  (parseUrl (c.startUrl.getD "")).isSome && logLevelValid c

/-- `UrlQueue.add`'s admission condition, written as the spec states it
(amended): all membership tests run on the *twice*-normalized URL, the
remaining checks on the once-normalized URL. -/
def addSpec (q : UrlQueue) (url : String) (depth : Nat) : Bool :=
  let n := normalizeUrl q.cfg url
  let n2 := normalizeUrl q.cfg n
  !(q.visited.contains n2) && !(q.queue.contains n2) && decide (depth ≤ q.maxDepth) &&
  (match parseUrl n with
   | none => false
   | some pu =>
     q.allowedDomains.contains ⟨pu.host⟩ &&
     q.visited.all (fun v =>
       match parseUrl v with
       | some vp => !(vp.host == pu.host && vp.path == pu.path)
       | none => true) &&
     decide ((q.visited.filter (fun v =>
       match parseUrl v with
       | some vp => vp.host == pu.host
       | none => false)).length < q.maxPagesPerDomain))


/-- No two adjacent slashes (the invariant `collapseSlashes` establishes). -/
def noDoubleSlash : List Char → Bool
  | [] => true
  | [_] => true
  | a :: b :: rest => !(a = '/' && b = '/') && noDoubleSlash (b :: rest)

/-- Well-formed query pair: the key holds no `&`/`=`, the value no `&` —
exactly what `parseParams` produces and what makes `serializeParams` its
inverse. -/
def wfPair (p : String × String) : Bool :=
  p.1.data.all (fun c => c ≠ '&' && c ≠ '=') && p.2.data.all (fun c => c ≠ '&')

def wfParams (l : List (String × String)) : Bool := l.all wfPair

/-- The inputs on which one `normalizeUrl` pass is a fixed point of the next:
the default-document rule does not fire, and the final trailing-slash strip
cannot eat a `/` that ends the kept fragment or query. -/
def stripSafe (cfg : NormCfg) (s : String) : Bool :=
  match parseUrlAux s.data with
  | none => true
  | some u =>
    let p3 := ensureLeadingSlash (dropTrailingSlashes (collapseSlashes u.path))
    (stripDefaultDoc p3 == p3) &&
    (match (if cfg.ignoreHashFragments then none else u.frag) with
     | some f => !(f.getLast? == some '/')
     | none =>
       match normalizeQuery cfg u.query with
       | some qs => !(qs.getLast? == some '/')
       | none => true)

instance : IsTotal (String × String) (fun p q => p.1 ≤ q.1) :=
  ⟨fun a b => le_total a.1 b.1⟩

instance : IsTrans (String × String) (fun p q => p.1 ≤ q.1) :=
  ⟨fun _ _ _ h1 h2 => le_trans h1 h2⟩

/-! ## Shared helper lemmas -/

theorem mem_addSet_iff (l : List String) (x y : String) :
    y ∈ addSet l x ↔ y ∈ l ∨ y = x := by
  unfold addSet
  by_cases h : l.contains x = true
  · rw [if_pos h]
    constructor
    · exact Or.inl
    · rintro (hy | rfl)
      · exact hy
      · exact List.elem_iff.mp h
  · rw [if_neg h]
    simp [List.mem_append]

theorem nodup_addSet (l : List String) (x : String) (h : l.Nodup) :
    (addSet l x).Nodup := by
  unfold addSet
  by_cases hc : l.contains x = true
  · rwa [if_pos hc]
  · rw [if_neg hc]
    refine List.Nodup.append h (List.nodup_singleton x) ?_
    intro a ha hax
    rcases List.mem_singleton.mp hax with rfl
    exact hc (List.elem_iff.mpr ha)

theorem bool_eq_false_of_ne {b : Bool} (h : ¬ (b = true)) : b = false := by
  cases b
  · rfl
  · exact absurd rfl h

theorem lookup_setDepth (m : List (String × Nat)) (k : String) (d : Nat) :
    (setDepth m k d).lookup k = some d := by
  induction m with
  | nil => simp [setDepth, List.lookup]
  | cons p rest ih =>
    obtain ⟨k', d'⟩ := p
    unfold setDepth
    by_cases h : k' = k
    · subst h
      simp [List.lookup]
    · rw [if_neg h]
      have : (k == k') = false := by
        simp only [beq_eq_false_iff_ne, ne_eq]
        exact fun hk => h hk.symm
      simp [List.lookup, this, ih]

/-! ## C7 — depth tracking -/

/-- C7 (amended): `getCurrentDepth` returns the depth recorded by the most
recent successful `add` of that URL — not the minimum of all observed depths —
and `0` for a URL never successfully added; `next` never changes the recorded
depths. -/
theorem getCurrentDepth_spec :
    (∀ (q : UrlQueue) (url : String) (depth : Nat),
        (q.add url depth).1 = true →
        (q.add url depth).2.getCurrentDepth url = depth) ∧
    (∀ (maxD maxP : Nat) (doms : List String) (iq ih : Bool) (url : String),
        (UrlQueue.init maxD maxP doms iq ih).getCurrentDepth url = 0) ∧
    (∀ q : UrlQueue, q.next.2.currentDepth = q.currentDepth) := by
  refine ⟨?_, ?_, ?_⟩
  · intro q url depth h
    unfold UrlQueue.add at *
    by_cases hs : q.shouldProcessUrl (normalizeUrl q.cfg url) depth = true
    · rw [if_pos hs] at h ⊢
      show ((setDepth q.currentDepth (normalizeUrl q.cfg url) depth).lookup
        (normalizeUrl (UrlQueue.cfg _) url)).getD 0 = depth
      have hcfg : UrlQueue.cfg { q with
          queue := addSet q.queue (normalizeUrl q.cfg url),
          currentDepth := setDepth q.currentDepth (normalizeUrl q.cfg url) depth } =
          q.cfg := rfl
      rw [hcfg, lookup_setDepth]
      rfl
    · rw [if_neg hs] at h
      exact absurd h (by simp)
  · intro maxD maxP doms iq ih url
    rfl
  · intro q
    unfold UrlQueue.next
    cases hq : q.queue with
    | nil => rfl
    | cons x rest =>
      by_cases hx : x = "" <;> simp [hx]

/-- Witness for `getCurrentDepth_spec`: a concrete successful `add` at depth 3
records depth 3. -/
theorem getCurrentDepth_spec_witness :
    ((UrlQueue.init 5 5 ["h"] false false).add "http://h/a" 3).2.getCurrentDepth
      "http://h/a" = 3 :=
  getCurrentDepth_spec.1 (UrlQueue.init 5 5 ["h"] false false) "http://h/a" 3 (by decide)

/-- C7 counterexample: after `add(u, 3)` then `add(u, 1)` the recorded depth is
3, not the minimum 1 — the second `add` is rejected because the URL is already
queued, so the lower depth is never recorded. -/
theorem getCurrentDepth_not_minimum :
    ((((UrlQueue.init 5 5 ["h"] false false).add "http://h/a" 3).2.add
        "http://h/a" 1).2.getCurrentDepth "http://h/a" = 3) ∧ (3 : Nat) ≠ 1 :=
  ⟨by decide, by decide⟩

/-! ## C5 — cross-page form identity -/

/-- C5 (amended): `hasFormBeenInteracted(formId, url)` is true iff the exact
`url#formId` pair was recorded, or the angle-stripped identifier occurs as a
substring of *any* recorded `url#formId` string — a strictly coarser test than
"the same identifier was recorded on another URL". -/
theorem hasFormBeenInteracted_iff (t : InteractionTracker) (f url : String) :
    t.hasFormBeenInteracted f url = true ↔
      createUniqueFormId f url ∈ t.interactedForms ∨
      ∃ id ∈ t.interactedForms, containsSubstr id (removeAngles f) = true := by
  unfold InteractionTracker.hasFormBeenInteracted
  by_cases h : t.interactedForms.contains (createUniqueFormId f url) = true
  · rw [if_pos h]
    simp only [true_iff]
    exact Or.inl (List.elem_iff.mp h)
  · rw [if_neg h]
    rw [List.any_eq_true]
    constructor
    · rintro ⟨id, hid, hsub⟩
      exact Or.inr ⟨id, hid, hsub⟩
    · rintro (hmem | ⟨id, hid, hsub⟩)
      · exact absurd (List.elem_iff.mpr hmem) h
      · exact ⟨id, hid, hsub⟩

/-- Witness for `hasFormBeenInteracted_iff`: the cross-page positive case of
the claim (identifier "contact" recorded on URL A, queried on URL B). -/
theorem hasFormBeenInteracted_iff_witness :
    (InteractionTracker.init.addInteractedForm "contact"
        "http://a/p1").hasFormBeenInteracted "contact" "http://b/p2" = true :=
  (hasFormBeenInteracted_iff _ "contact" "http://b/p2").mpr
    (Or.inr ⟨"http://a/p1#contact", by decide, by decide⟩)

/-- C5 counterexample: the fallback is substring containment, not identifier
equality — after recording only the pair (formId "x", URL "http://a/contact"),
the query for formId "contact" on a different URL returns true although a form
with identifier "contact" was never recorded anywhere. -/
theorem hasFormBeenInteracted_substring_false_positive :
    ((InteractionTracker.init.addInteractedForm "x"
        "http://a/contact").hasFormBeenInteracted "contact" "http://b/page" = true) ∧
    (InteractionTracker.init.addInteractedForm "x" "http://a/contact").interactedForms =
      [createUniqueFormId "x" "http://a/contact"] ∧
    ("contact" : String) ≠ "x" ∧ ("http://b/page" : String) ≠ "http://a/contact" :=
  ⟨by decide, by decide, by decide, by decide⟩

/-! ## C10 — form ledger marks the page visited -/

/-- C10: `addInteractedForm` also records the query-and-fragment-stripped URL
in the visited set, so any URL differing only there is reported visited and
`interactWithForms` short-circuits to the single skipped result, touching no
form. -/
theorem formPass_skips_after_form_interaction
    (t : InteractionTracker) (f url u' : String)
    (procResults : List FormInteractionResultShape)
    (h : trackerNormalizeUrl u' = trackerNormalizeUrl url) :
    (t.addInteractedForm f url).hasUrlBeenVisited u' = true ∧
    interactWithForms (t.addInteractedForm f url) u' procResults =
      [pageFormsSkipped] := by
  have hv : (t.addInteractedForm f url).hasUrlBeenVisited u' = true := by
    unfold InteractionTracker.addInteractedForm InteractionTracker.addVisitedUrl
      InteractionTracker.hasUrlBeenVisited
    rw [h]
    exact List.elem_iff.mpr ((mem_addSet_iff _ _ _).mpr (Or.inr rfl))
  refine ⟨hv, ?_⟩
  unfold interactWithForms
  rw [hv]
  rfl

/-- Witness for `formPass_skips_after_form_interaction` at a concrete URL pair
differing only in query string and fragment. -/
theorem formPass_skips_witness :
    (InteractionTracker.init.addInteractedForm "contact"
        "http://h/page?a=1#f").hasUrlBeenVisited "http://h/page?b=2" = true ∧
    interactWithForms
      (InteractionTracker.init.addInteractedForm "contact" "http://h/page?a=1#f")
      "http://h/page?b=2" [] = [pageFormsSkipped] :=
  formPass_skips_after_form_interaction InteractionTracker.init "contact"
    "http://h/page?a=1#f" "http://h/page?b=2" [] (by decide)

/-! ## C1 — frontier exclusivity -/

/-- A successful admission check implies the checked URL is not visited: if it
were, the visited-path scan would find the URL itself (when it parses), and an
unparseable URL fails the check anyway. -/
theorem shouldProcess_not_visited (q : UrlQueue) (n : String) (depth : Nat)
    (h : q.shouldProcessUrl n depth = true) : n ∉ q.visited := by
  intro hmem
  simp only [UrlQueue.shouldProcessUrl] at h
  split at h
  · exact Bool.false_ne_true h
  · split at h
    · exact Bool.false_ne_true h
    · split at h
      · exact Bool.false_ne_true h
      · next pu hp =>
        split at h
        · exact Bool.false_ne_true h
        · split at h
          · exact Bool.false_ne_true h
          · rename_i hany
            exact hany (List.any_eq_true.mpr ⟨n, hmem, by simp [hp]⟩)

theorem add_preserves_frontierInv (q : UrlQueue) (url : String) (depth : Nat)
    (h : frontierInv q) : frontierInv (q.add url depth).2 := by
  unfold UrlQueue.add
  by_cases hs : q.shouldProcessUrl (normalizeUrl q.cfg url) depth = true
  · rw [if_pos hs]
    refine ⟨nodup_addSet _ _ h.1, ?_⟩
    intro x hx
    rcases (mem_addSet_iff _ _ _).mp hx with hx' | rfl
    · exact h.2 x hx'
    · exact shouldProcess_not_visited q _ depth hs
  · rw [if_neg hs]
    exact h

theorem next_preserves_frontierInv (q : UrlQueue) (h : frontierInv q) :
    frontierInv q.next.2 := by
  unfold UrlQueue.next
  cases hq : q.queue with
  | nil => exact h
  | cons x rest =>
    have hnodup : (x :: rest).Nodup := hq ▸ h.1
    by_cases hx : x = ""
    · simp only [if_pos hx]
      exact h
    · simp only [if_neg hx]
      refine ⟨(List.nodup_cons.mp hnodup).2, ?_⟩
      intro y hy hyv
      rcases (mem_addSet_iff _ _ _).mp hyv with hv | rfl
      · exact h.2 y (hq ▸ List.mem_cons_of_mem _ hy) hv
      · exact (List.nodup_cons.mp hnodup).1 hy

theorem runOps_frontierInv (ops : List QueueOp) :
    ∀ q, frontierInv q → frontierInv (runOps q ops) := by
  induction ops with
  | nil => exact fun q h => h
  | cons op rest ih =>
    intro q h
    cases op with
    | add u d => exact ih _ (add_preserves_frontierInv q u d h)
    | next => exact ih _ (next_preserves_frontierInv q h)

/-- C1 (amended): over every sequence of `add` and `next` calls alone, a URL
is in at most one of the queued and visited sets.  The cross-registration is
excluded: it can put a URL in both sets (see the counterexample). -/
theorem frontier_exclusive (maxD maxP : Nat) (doms : List String) (iq ih : Bool)
    (ops : List QueueOp) (x : String)
    (hx : x ∈ (runOps (UrlQueue.init maxD maxP doms iq ih) ops).queue) :
    x ∉ (runOps (UrlQueue.init maxD maxP doms iq ih) ops).visited :=
  (runOps_frontierInv ops _
    ⟨List.nodup_nil, fun y hy => absurd hy (List.not_mem_nil y)⟩).2 x hx

/-- Witness for `frontier_exclusive`: one admitted URL is queued and not
visited. -/
theorem frontier_exclusive_witness :
    "http://h/a" ∉
      (runOps (UrlQueue.init 2 5 ["h"] false false) [QueueOp.add "http://h/a" 0]).visited :=
  frontier_exclusive 2 5 ["h"] false false [QueueOp.add "http://h/a" 0] "http://h/a"
    (by decide)

/-- C1 counterexample: the Interaction Executor's cross-registration calls
`urlQueue.add` (which enqueues the URL) and then inserts the same normalized
URL directly into the visited set, leaving it a member of both. -/
theorem crossRegister_breaks_exclusivity :
    "http://h/a" ∈
      (crossRegister (UrlQueue.init 2 5 ["h"] false false) "http://h/a" "http://h").queue ∧
    "http://h/a" ∈
      (crossRegister (UrlQueue.init 2 5 ["h"] false false) "http://h/a" "http://h").visited :=
  ⟨by decide, by decide⟩

/-! ## C4 — outcome-classification priority -/

/-- C4: when the post-click re-classification finds elements and an AJAX
response was captured or the URL did not change, the dynamic-success branch is
taken (`dynamicChangesDetected = true`, `causedNavigation = false`,
`newElementsFound` set, frontier untouched); the navigation branch is taken
only when that condition fails, the URL changed, and the new URL has no `#`. -/
theorem classifyOutcome_priority :
    (∀ (q : UrlQueue) (su nu : String) (aj : Nat) (els : List ClickableElement),
        els ≠ [] → (aj > 0 ∨ nu = su) →
        classifyOutcome q su nu aj els =
          (OutcomeTag.successDynamic,
           { success := true, causedNavigation := false, newUrl := none,
             skippedDueToScope := none,
             ajaxResponses := if aj > 0 then some aj else none,
             dynamicChangesDetected := some true,
             newElementsFound := some els }, q)) ∧
    (∀ (q : UrlQueue) (su nu : String) (aj : Nat) (els : List ClickableElement),
        (classifyOutcome q su nu aj els).1 = OutcomeTag.successWithNavigation →
        (els = [] ∨ (aj = 0 ∧ nu ≠ su)) ∧ nu ≠ su ∧ nu.contains '#' = false) := by
  constructor
  · intro q su nu aj els h1 h2
    have hlen : 0 < els.length := List.length_pos.mpr h1
    rcases h2 with haj | hnav
    · simp [classifyOutcome, hlen, haj]
    · simp [classifyOutcome, hlen, hnav]
  · intro q su nu aj els h
    simp only [classifyOutcome] at h
    split at h
    · simp at h
    · next hc1 =>
      split at h
      · next hc2 =>
        simp only [Bool.and_eq_true, Bool.or_eq_true, decide_eq_true_eq, not_and,
          not_or] at hc1 hc2
        refine ⟨?_, hc2.1, by simpa using hc2.2⟩
        by_cases hels : els = []
        · exact Or.inl hels
        · have hlen : 0 < els.length := List.length_pos.mpr hels
          have := hc1 hlen
          refine Or.inr ⟨by omega, hc2.1⟩
      · simp at h

/-- Witness for `classifyOutcome_priority`: a concrete interaction with one
new element and one AJAX response on an unchanged URL takes the dynamic
branch. -/
theorem classifyOutcome_priority_witness :
    classifyOutcome (UrlQueue.init 2 5 ["h"] false false) "http://h" "http://h" 1
        [⟨"button", "Go", "#b", none⟩] =
      (OutcomeTag.successDynamic,
       { success := true, causedNavigation := false, newUrl := none,
         skippedDueToScope := none, ajaxResponses := some 1,
         dynamicChangesDetected := some true,
         newElementsFound := some [⟨"button", "Go", "#b", none⟩] },
       UrlQueue.init 2 5 ["h"] false false) := by
  have := classifyOutcome_priority.1 (UrlQueue.init 2 5 ["h"] false false)
    "http://h" "http://h" 1 [⟨"button", "Go", "#b", none⟩] (by decide) (Or.inr rfl)
  simpa using this

/-! ## C6 — element dedup in the dynamic-depth driver -/

theorem driverStep_invoked (o : Nat → InteractionResultM) (st : DriverState)
    (e : ClickableElement) : (driverStep o st e).invoked = st.invoked ++ [e] := by
  simp only [driverStep]
  split <;> rfl

theorem driverStep_processed (o : Nat → InteractionResultM) (st : DriverState)
    (e : ClickableElement) :
    (driverStep o st e).processed = addSet st.processed (createElementIdentifier e) := by
  simp only [driverStep]
  split <;> rfl

theorem runDriver_nodup_aux (oracle : Nat → InteractionResultM) :
    ∀ (fuel : Nat) (st : DriverState),
      (∀ k ∈ st.invoked.map createElementIdentifier, k ∈ st.processed) →
      (st.invoked.map createElementIdentifier).Nodup →
      ((runDriver oracle fuel st).invoked.map createElementIdentifier).Nodup := by
  intro fuel
  induction fuel with
  | zero => exact fun st _ h2 => h2
  | succ n ih =>
    intro st h1 h2
    unfold runDriver
    cases hq : st.queue with
    | nil => exact h2
    | cons e rest =>
      by_cases hp : st.processed.contains (createElementIdentifier e) = true
      · simp only [if_pos hp]
        exact ih _ h1 h2
      · simp only [if_neg hp]
        apply ih
        · intro k hk
          rw [driverStep_invoked, List.map_append] at hk
          rw [driverStep_processed]
          rcases List.mem_append.mp hk with hk' | hk'
          · exact (mem_addSet_iff _ _ _).mpr (Or.inl (h1 k hk'))
          · rcases List.mem_singleton.mp (by simpa using hk') with rfl
            exact (mem_addSet_iff _ _ _).mpr (Or.inr rfl)
        · rw [driverStep_invoked, List.map_append]
          refine List.Nodup.append h2 (by simp) ?_
          intro a ha ha'
          rcases List.mem_singleton.mp (by simpa using ha') with rfl
          exact hp (List.elem_iff.mpr (h1 _ ha))

/-- C6: one `interactWithElements` pass never hands two elements with the same
identity key to `interactWithElement` (whatever results the per-element
interactions return), and each processed element's genuinely new elements are
pushed to the front of the work queue, before the remaining siblings. -/
theorem interactWithElements_dedup :
    (∀ (oracle : Nat → InteractionResultM) (fuel : Nat)
        (elements : List ClickableElement),
        ((runDriver oracle fuel (initDriver elements)).invoked.map
          createElementIdentifier).Nodup) ∧
    (∀ (oracle : Nat → InteractionResultM) (st : DriverState) (e : ClickableElement),
        ∃ fresh : List ClickableElement,
          (driverStep oracle st e).queue = fresh ++ st.queue ∧
          ∀ x ∈ fresh, st.seen.contains (createElementIdentifier x) = false) := by
  constructor
  · intro oracle fuel elements
    exact runDriver_nodup_aux oracle fuel (initDriver elements)
      (by simp [initDriver]) (by simp [initDriver])
  · intro oracle st e
    simp only [driverStep]
    split
    · refine ⟨trulyNewOf st.seen (addSet st.processed (createElementIdentifier e))
        (oracle st.idx).newElementsFound, rfl, ?_⟩
      intro x hx
      have hcond := List.of_mem_filter hx
      simp only [Bool.and_eq_true, decide_eq_true_eq, Bool.not_eq_true] at hcond
      exact hcond.1
    · exact ⟨[], rfl, by simp⟩

/-- Witness for `interactWithElements_dedup` at a concrete duplicated input. -/
theorem interactWithElements_dedup_witness :
    ((runDriver (fun _ => ⟨true, []⟩) 5
        (initDriver [⟨"button", "Go", "#b", none⟩, ⟨"button", "Go", "#b", none⟩])).invoked.map
      createElementIdentifier).Nodup :=
  interactWithElements_dedup.1 (fun _ => ⟨true, []⟩) 5
    [⟨"button", "Go", "#b", none⟩, ⟨"button", "Go", "#b", none⟩]

/-! ## C9 — configuration validation -/

/-- C9 (amended): `validateConfig` accepts exactly the configurations of
`validateConfigSpec` — the contract of the spec minus any check of
`frameworkTimeout`, `retryDelay` or `networkIdleTime` — and `loadConfig`
returns an accepted configuration unchanged. -/
theorem validateConfig_ok_iff :
    (∀ c : CrawlerConfig,
        validateConfig c = Except.ok () ↔ validateConfigSpec c = true) ∧
    (∀ c : CrawlerConfig,
        validateConfig c = Except.ok () → loadConfig c = Except.ok c) := by
  constructor
  · intro c
    constructor
    · intro h
      unfold validateConfig at h
      by_cases h1 : c.startUrl.isNone = true
      · rw [if_pos h1] at h; exact Except.noConfusion h
      rw [if_neg h1] at h
      by_cases h2 : c.allowedDomains.isNone = true
      · rw [if_pos h2] at h; exact Except.noConfusion h
      rw [if_neg h2] at h
      by_cases h3 : c.maxDepth.isNone = true
      · rw [if_pos h3] at h; exact Except.noConfusion h
      rw [if_neg h3] at h
      by_cases h4 : c.maxPagesPerDomain.isNone = true
      · rw [if_pos h4] at h; exact Except.noConfusion h
      rw [if_neg h4] at h
      by_cases h5 : c.timeout.isNone = true
      · rw [if_pos h5] at h; exact Except.noConfusion h
      rw [if_neg h5] at h
      by_cases h6 : jsLE c.maxDepth 0 = true
      · rw [if_pos h6] at h; exact Except.noConfusion h
      rw [if_neg h6] at h
      by_cases h7 : jsLE c.maxPagesPerDomain 0 = true
      · rw [if_pos h7] at h; exact Except.noConfusion h
      rw [if_neg h7] at h
      by_cases h8 : jsLE c.timeout 0 = true
      · rw [if_pos h8] at h; exact Except.noConfusion h
      rw [if_neg h8] at h
      by_cases h9 : jsLT c.requestDelay 0 = true
      · rw [if_pos h9] at h; exact Except.noConfusion h
      rw [if_neg h9] at h
      by_cases h10 : jsLE c.maxConcurrentRequests 0 = true
      · rw [if_pos h10] at h; exact Except.noConfusion h
      rw [if_neg h10] at h
      by_cases h11 : (parseUrl (c.startUrl.getD "")).isNone = true
      · rw [if_pos h11] at h; exact Except.noConfusion h
      rw [if_neg h11] at h
      by_cases h12 : (!(logLevelValid c)) = true
      · rw [if_pos h12] at h; exact Except.noConfusion h
      unfold validateConfigSpec
      simp only [Bool.and_eq_true]
      refine ⟨⟨⟨⟨⟨⟨⟨⟨⟨⟨⟨?_, ?_⟩, ?_⟩, ?_⟩, ?_⟩, ?_⟩, ?_⟩, ?_⟩, ?_⟩, ?_⟩, ?_⟩, ?_⟩
      · cases hs : c.startUrl with
        | none => exact absurd (by rw [hs]; rfl) h1
        | some v => rfl
      · cases hs : c.allowedDomains with
        | none => exact absurd (by rw [hs]; rfl) h2
        | some v => rfl
      · cases hs : c.maxDepth with
        | none => exact absurd (by rw [hs]; rfl) h3
        | some v => rfl
      · cases hs : c.maxPagesPerDomain with
        | none => exact absurd (by rw [hs]; rfl) h4
        | some v => rfl
      · cases hs : c.timeout with
        | none => exact absurd (by rw [hs]; rfl) h5
        | some v => rfl
      · rw [bool_eq_false_of_ne h6]; rfl
      · rw [bool_eq_false_of_ne h7]; rfl
      · rw [bool_eq_false_of_ne h8]; rfl
      · rw [bool_eq_false_of_ne h9]; rfl
      · rw [bool_eq_false_of_ne h10]; rfl
      · cases hs : parseUrl (c.startUrl.getD "") with
        | none => exact absurd (by rw [hs]; rfl) h11
        | some u => rfl
      · by_cases hll : logLevelValid c = true
        · exact hll
        · exact absurd (by rw [bool_eq_false_of_ne hll]; rfl) h12
    · intro h
      unfold validateConfigSpec at h
      simp only [Bool.and_eq_true] at h
      obtain ⟨⟨⟨⟨⟨⟨⟨⟨⟨⟨⟨hA, hB⟩, hC⟩, hD⟩, hE⟩, hF⟩, hG⟩, hH⟩, hI⟩, hJ⟩, hK⟩, hL⟩ := h
      unfold validateConfig
      rw [if_neg (show ¬ (c.startUrl.isNone = true) from fun hni => by
            cases hs : c.startUrl with
            | none => rw [hs] at hA; exact Bool.false_ne_true hA
            | some v => rw [hs] at hni; exact Bool.false_ne_true hni)]
      rw [if_neg (show ¬ (c.allowedDomains.isNone = true) from fun hni => by
            cases hs : c.allowedDomains with
            | none => rw [hs] at hB; exact Bool.false_ne_true hB
            | some v => rw [hs] at hni; exact Bool.false_ne_true hni)]
      rw [if_neg (show ¬ (c.maxDepth.isNone = true) from fun hni => by
            cases hs : c.maxDepth with
            | none => rw [hs] at hC; exact Bool.false_ne_true hC
            | some v => rw [hs] at hni; exact Bool.false_ne_true hni)]
      rw [if_neg (show ¬ (c.maxPagesPerDomain.isNone = true) from fun hni => by
            cases hs : c.maxPagesPerDomain with
            | none => rw [hs] at hD; exact Bool.false_ne_true hD
            | some v => rw [hs] at hni; exact Bool.false_ne_true hni)]
      rw [if_neg (show ¬ (c.timeout.isNone = true) from fun hni => by
            cases hs : c.timeout with
            | none => rw [hs] at hE; exact Bool.false_ne_true hE
            | some v => rw [hs] at hni; exact Bool.false_ne_true hni)]
      rw [if_neg (show ¬ (jsLE c.maxDepth 0 = true) from fun hc => by
            rw [hc] at hF; exact Bool.false_ne_true hF)]
      rw [if_neg (show ¬ (jsLE c.maxPagesPerDomain 0 = true) from fun hc => by
            rw [hc] at hG; exact Bool.false_ne_true hG)]
      rw [if_neg (show ¬ (jsLE c.timeout 0 = true) from fun hc => by
            rw [hc] at hH; exact Bool.false_ne_true hH)]
      rw [if_neg (show ¬ (jsLT c.requestDelay 0 = true) from fun hc => by
            rw [hc] at hI; exact Bool.false_ne_true hI)]
      rw [if_neg (show ¬ (jsLE c.maxConcurrentRequests 0 = true) from fun hc => by
            rw [hc] at hJ; exact Bool.false_ne_true hJ)]
      rw [if_neg (show ¬ ((parseUrl (c.startUrl.getD "")).isNone = true) from fun hni => by
            cases hs : parseUrl (c.startUrl.getD "") with
            | none => rw [hs] at hK; exact Bool.false_ne_true hK
            | some u => rw [hs] at hni; exact Bool.false_ne_true hni)]
      rw [if_neg (show ¬ ((!(logLevelValid c)) = true) from fun hc => by
            rw [hL] at hc; exact Bool.false_ne_true hc)]
  · intro c h
    unfold loadConfig
    rw [h]

/-- Witness for `validateConfig_ok_iff`: a concrete valid configuration is
accepted and returned unchanged. -/
theorem validateConfig_ok_iff_witness :
    loadConfig
        { startUrl := some "http://example.com", allowedDomains := some ["example.com"],
          maxDepth := some 2, maxPagesPerDomain := some 10, timeout := some 30000,
          requestDelay := some 0, maxConcurrentRequests := some 3,
          frameworkTimeout := some 5000, retryDelay := some 100,
          networkIdleTime := some 300, logLevel := some "info" } =
      Except.ok
        { startUrl := some "http://example.com", allowedDomains := some ["example.com"],
          maxDepth := some 2, maxPagesPerDomain := some 10, timeout := some 30000,
          requestDelay := some 0, maxConcurrentRequests := some 3,
          frameworkTimeout := some 5000, retryDelay := some 100,
          networkIdleTime := some 300, logLevel := some "info" } :=
  validateConfig_ok_iff.2 _ ((validateConfig_ok_iff.1 _).mpr (by decide))

/-- C9 counterexample: a configuration with a negative `frameworkTimeout`
(and, for good measure, absent `retryDelay`/`networkIdleTime`) is accepted,
although the claim requires `loadConfig` to throw for any non-positive
recognized numeric option. -/
theorem validateConfig_ignores_frameworkTimeout :
    validateConfig
        { startUrl := some "http://example.com", allowedDomains := some ["example.com"],
          maxDepth := some 2, maxPagesPerDomain := some 10, timeout := some 30000,
          requestDelay := some 0, maxConcurrentRequests := some 3,
          frameworkTimeout := some (-5), retryDelay := none, networkIdleTime := none,
          logLevel := some "info" } = Except.ok () ∧ ¬ ((0 : Int) < -5) :=
  ⟨rfl, by decide⟩

/-! ## C2 — frontier admission -/

theorem all_not_eq_not_any (l : List String) (p : String → Bool) :
    (l.all fun v => !(p v)) = !(l.any p) := by
  induction l with
  | nil => rfl
  | cons x xs ih => simp [List.all_cons, List.any_cons, ih]

/-- `shouldProcessUrl` computes exactly the spec-shaped conjunction (with the
membership tests on the re-normalized argument). -/
theorem shouldProcess_eq_spec (q : UrlQueue) (n : String) (depth : Nat) :
    q.shouldProcessUrl n depth =
      (!(q.visited.contains (normalizeUrl q.cfg n)) &&
       !(q.queue.contains (normalizeUrl q.cfg n)) &&
       decide (depth ≤ q.maxDepth) &&
       (match parseUrl n with
        | none => false
        | some pu =>
          q.allowedDomains.contains ⟨pu.host⟩ &&
          q.visited.all (fun v =>
            match parseUrl v with
            | some vp => !(vp.host == pu.host && vp.path == pu.path)
            | none => true) &&
          decide ((q.visited.filter (fun v =>
            match parseUrl v with
            | some vp => vp.host == pu.host
            | none => false)).length < q.maxPagesPerDomain))) := by
  rw [Bool.eq_iff_iff]
  constructor
  · intro h
    simp only [UrlQueue.shouldProcessUrl] at h
    split at h
    · exact (Bool.false_ne_true h).elim
    rename_i hc1
    split at h
    · exact (Bool.false_ne_true h).elim
    rename_i hc2
    split at h
    · exact (Bool.false_ne_true h).elim
    next pu hp =>
    split at h
    · exact (Bool.false_ne_true h).elim
    rename_i hc4
    split at h
    · exact (Bool.false_ne_true h).elim
    rename_i hc5
    simp only [Bool.and_eq_true]
    refine ⟨⟨⟨?_, ?_⟩, ?_⟩, ?_⟩
    · cases hv : q.visited.contains (normalizeUrl q.cfg n) <;> simp_all
    · cases hv : q.queue.contains (normalizeUrl q.cfg n) <;> simp_all
    · simp only [decide_eq_true_eq] at hc2 ⊢
      omega
    · refine ⟨⟨by simpa using hc4, ?_⟩, h⟩
      rw [List.all_eq_true]
      intro v hv
      have hnv : ¬ ((fun w : String =>
          match parseUrl w with
          | some vp => vp.host == pu.host && vp.path == pu.path
          | none => false) v = true) :=
        fun hcon => hc5 (List.any_eq_true.mpr ⟨v, hv, hcon⟩)
      cases hpv : parseUrl v
      · simp_all
      · simp_all
        tauto
  · intro h
    simp only [Bool.and_eq_true] at h
    obtain ⟨⟨⟨ha, hb⟩, hc⟩, hm⟩ := h
    simp only [UrlQueue.shouldProcessUrl]
    rw [if_neg (show ¬ ((q.visited.contains (normalizeUrl q.cfg n) ||
          q.queue.contains (normalizeUrl q.cfg n)) = true) by
        cases hv : q.visited.contains (normalizeUrl q.cfg n) <;>
          cases hq : q.queue.contains (normalizeUrl q.cfg n) <;> simp_all)]
    rw [if_neg (show ¬ (decide (depth > q.maxDepth) = true) by
        simp only [decide_eq_true_eq] at hc ⊢
        omega)]
    split
    · rename_i heq
      rw [heq] at hm
      exact absurd hm (by simp)
    · rename_i pu heq
      rw [heq] at hm
      simp only [Bool.and_eq_true] at hm
      obtain ⟨⟨hdom, hall⟩, hcnt⟩ := hm
      rw [if_neg (not_not_intro hdom)]
      rw [if_neg (show ¬ ((q.visited.any fun v =>
            match parseUrl v with
            | some vp => vp.host == pu.host && vp.path == pu.path
            | none => false) = true) from ?_)]
      · exact hcnt
      · intro hany
        obtain ⟨v, hv, hvp⟩ := List.any_eq_true.mp hany
        have := (List.all_eq_true.mp hall) v hv
        cases hpv : parseUrl v <;> simp_all

/-- C2 (amended): `add(url, depth)` returns true iff the twice-normalized URL
is in neither the visited nor the queued set, `depth ≤ maxDepth`, and the
once-normalized URL parses to a host in `allowedDomains`, shares no
(host, path) with a visited URL, and its host's visited count is below
`maxPagesPerDomain`; moreover re-adding a URL whose normalization is already
visited always returns false. -/
theorem add_eq_addSpec :
    (∀ (q : UrlQueue) (url : String) (depth : Nat),
        (q.add url depth).1 = addSpec q url depth) ∧
    (∀ (q : UrlQueue) (url : String) (depth : Nat),
        normalizeUrl q.cfg url ∈ q.visited → (q.add url depth).1 = false) := by
  constructor
  · intro q url depth
    have hadd : (q.add url depth).1 =
        q.shouldProcessUrl (normalizeUrl q.cfg url) depth := by
      simp only [UrlQueue.add]
      split <;> simp_all
    rw [hadd, shouldProcess_eq_spec]
    rfl
  · intro q url depth hmem
    simp only [UrlQueue.add]
    by_cases hs : q.shouldProcessUrl (normalizeUrl q.cfg url) depth = true
    · exact absurd hmem (shouldProcess_not_visited q _ depth hs)
    · simp [hs]

/-- Witness for `add_eq_addSpec`: re-adding a dequeued (visited) URL returns
false. -/
theorem add_eq_addSpec_witness :
    ((((UrlQueue.init 2 5 ["h"] false false).add "http://h/a" 0).2.next.2).add
        "http://h/a" 1).1 = false :=
  add_eq_addSpec.2 _ "http://h/a" 1 (by decide)

/-- C2 counterexample: because `shouldProcessUrl` re-normalizes its already
normalized argument and normalization is not idempotent, `add` can return true
while the normalized URL is already in the queued set — refuting the claimed
"not already queued" conjunct. -/
theorem add_true_while_queued :
    normalizeUrl ⟨false, false⟩ "http://h/a/index.php?x=1" ∈
      ((UrlQueue.init 2 5 ["h"] false false).add "http://h/a/index.php?x=1" 0).2.queue ∧
    (((UrlQueue.init 2 5 ["h"] false false).add "http://h/a/index.php?x=1" 0).2.add
        "http://h/a/index.php?x=1" 0).1 = true :=
  ⟨by decide, by decide⟩

/-! ## C3/C8 — URL normalization: character-level toolkit -/

theorem mkData (s : String) : (⟨s.data⟩ : String) = s := by
  cases s
  rfl

theorem takeWhile_append_cons (p : Char → Bool) (xs : List Char) (y : Char)
    (ys : List Char) (hxs : ∀ x ∈ xs, p x = true) (hy : p y = false) :
    (xs ++ y :: ys).takeWhile p = xs ∧ (xs ++ y :: ys).dropWhile p = y :: ys := by
  induction xs with
  | nil => simp [List.takeWhile_cons, List.dropWhile_cons, hy]
  | cons x xs ih =>
    have hx : p x = true := hxs x (List.mem_cons_self _ _)
    have ih' := ih (fun z hz => hxs z (List.mem_cons_of_mem _ hz))
    simp [List.takeWhile_cons, List.dropWhile_cons, hx, ih'.1, ih'.2]

theorem takeWhile_all (p : Char → Bool) (xs : List Char)
    (hxs : ∀ x ∈ xs, p x = true) :
    xs.takeWhile p = xs ∧ xs.dropWhile p = [] := by
  induction xs with
  | nil => exact ⟨rfl, rfl⟩
  | cons x xs ih =>
    have hx : p x = true := hxs x (List.mem_cons_self _ _)
    have ih' := ih (fun z hz => hxs z (List.mem_cons_of_mem _ hz))
    simp [List.takeWhile_cons, List.dropWhile_cons, hx, ih'.1, ih'.2]

theorem jsToLower_table : ∀ p ∈ upperLowerPairs,
    upperLowerPairs.find? (fun q => q.1 = p.2) = none ∧
    p.2.isAlpha = true ∧ hostStop p.2 = false := by decide

theorem jsToLower_spec (c : Char) :
    jsToLower c = c ∨ ∃ p ∈ upperLowerPairs, jsToLower c = p.2 := by
  unfold jsToLower
  cases hf : upperLowerPairs.find? (fun p => p.1 = c) with
  | none => exact Or.inl rfl
  | some p => exact Or.inr ⟨p, List.mem_of_find?_eq_some hf, rfl⟩

theorem jsToLower_idem (c : Char) : jsToLower (jsToLower c) = jsToLower c := by
  rcases jsToLower_spec c with h | ⟨p, hp, h⟩
  · rw [h]
    exact h
  · rw [h]
    show jsToLower p.2 = p.2
    unfold jsToLower
    rw [(jsToLower_table p hp).1]

theorem jsToLower_isAlpha (c : Char) (h : c.isAlpha = true) :
    (jsToLower c).isAlpha = true := by
  rcases jsToLower_spec c with hc | ⟨p, hp, hc⟩
  · rwa [hc]
  · rw [hc]
    exact (jsToLower_table p hp).2.1

theorem jsToLower_hostStop (c : Char) (h : hostStop c = false) :
    hostStop (jsToLower c) = false := by
  rcases jsToLower_spec c with hc | ⟨p, hp, hc⟩
  · rwa [hc]
  · rw [hc]
    exact (jsToLower_table p hp).2.2

theorem map_jsToLower_idem (l : List Char) :
    (l.map jsToLower).map jsToLower = l.map jsToLower := by
  rw [List.map_map]
  exact List.map_congr_left (fun a _ => jsToLower_idem a)

theorem noDouble_tail {a : Char} {l : List Char}
    (h : noDoubleSlash (a :: l) = true) : noDoubleSlash l = true := by
  cases l with
  | nil => rfl
  | cons b rest =>
    simp only [noDoubleSlash, Bool.and_eq_true] at h
    exact h.2

theorem noDouble_cons_head {a b : Char} {rest : List Char}
    (h : noDoubleSlash (a :: b :: rest) = true) (ha : a = '/') : b ≠ '/' := by
  subst ha
  intro hb
  subst hb
  simp [noDoubleSlash] at h

theorem collapseAux_true_head :
    ∀ l : List Char, (collapseAux true l).head? ≠ some '/' := by
  intro l
  induction l with
  | nil => simp [collapseAux]
  | cons c cs ih =>
    by_cases hc : c = '/'
    · simpa [collapseAux, hc] using ih
    · simp [collapseAux, hc]

theorem collapseAux_noDouble :
    ∀ (l : List Char) (b : Bool), noDoubleSlash (collapseAux b l) = true := by
  intro l
  induction l with
  | nil => intro b; rfl
  | cons c cs ih =>
    intro b
    by_cases hc : c = '/'
    · subst hc
      cases b with
      | true => simpa [collapseAux] using ih true
      | false =>
        simp only [collapseAux, if_pos rfl]
        cases hX : collapseAux true cs with
        | nil => rfl
        | cons d ds =>
          have hd : d ≠ '/' := by
            have := collapseAux_true_head cs
            rw [hX] at this
            simpa using this
          have := ih true
          rw [hX] at this
          simp [noDoubleSlash, hd, this]
    · have heq : collapseAux b (c :: cs) = c :: collapseAux false cs := by
        simp [collapseAux, hc]
      rw [heq]
      cases hX : collapseAux false cs with
      | nil => rfl
      | cons d ds =>
        have := ih false
        rw [hX] at this
        simp [noDoubleSlash, hc, this]

theorem collapseAux_eq_self :
    ∀ l : List Char, noDoubleSlash l = true →
      collapseAux false l = l ∧ (l.head? ≠ some '/' → collapseAux true l = l) := by
  intro l
  induction l with
  | nil => intro _; exact ⟨rfl, fun _ => rfl⟩
  | cons c cs ih =>
    intro h
    have ihcs := ih (noDouble_tail h)
    constructor
    · by_cases hc : c = '/'
      · subst hc
        have hcs : collapseAux true cs = cs := by
          apply ihcs.2
          cases cs with
          | nil => simp
          | cons d ds =>
            have hd := noDouble_cons_head h rfl
            simp [hd]
        simp [collapseAux, hcs]
      · simp [collapseAux, hc, ihcs.1]
    · intro hhead
      have hc : c ≠ '/' := by
        intro hEq
        exact hhead (by rw [hEq]; rfl)
      simp [collapseAux, hc, ihcs.1]

theorem dropTrailingSlashes_cons (c : Char) (cs : List Char) :
    dropTrailingSlashes (c :: cs) =
      match dropTrailingSlashes cs with
      | [] => if c = '/' then [] else [c]
      | res => c :: res := rfl

theorem dropTrailing_no_trailing :
    ∀ l : List Char, (dropTrailingSlashes l).getLast? ≠ some '/' := by
  intro l
  induction l with
  | nil => simp [dropTrailingSlashes]
  | cons c cs ih =>
    rw [dropTrailingSlashes_cons]
    cases hX : dropTrailingSlashes cs with
    | nil => by_cases hc : c = '/' <;> simp [hc]
    | cons d ds =>
      rw [hX] at ih
      simpa [List.getLast?_cons_cons] using ih

theorem dropTrailing_eq_self :
    ∀ l : List Char, l.getLast? ≠ some '/' → dropTrailingSlashes l = l := by
  intro l
  induction l with
  | nil => intro _; rfl
  | cons c cs ih =>
    intro h
    rw [dropTrailingSlashes_cons]
    cases hcs : cs with
    | nil =>
      subst hcs
      have hc : c ≠ '/' := by
        intro hEq
        exact h (by rw [hEq]; simp)
      simp [dropTrailingSlashes, hc]
    | cons d ds =>
      subst hcs
      have hcs' : dropTrailingSlashes (d :: ds) = d :: ds := by
        apply ih
        simpa [List.getLast?_cons_cons] using h
      rw [hcs']

theorem dropTrailing_head :
    ∀ l : List Char, dropTrailingSlashes l = [] ∨
      (dropTrailingSlashes l).head? = l.head? := by
  intro l
  cases l with
  | nil => exact Or.inl rfl
  | cons c cs =>
    rw [dropTrailingSlashes_cons]
    cases hX : dropTrailingSlashes cs with
    | nil =>
      by_cases hc : c = '/'
      · exact Or.inl (by simp [hc])
      · exact Or.inr (by simp [hc])
    | cons d ds => exact Or.inr (by simp)

theorem noDouble_dropTrailing :
    ∀ l : List Char, noDoubleSlash l = true →
      noDoubleSlash (dropTrailingSlashes l) = true := by
  intro l
  induction l with
  | nil => intro _; rfl
  | cons c cs ih =>
    intro h
    have ihcs := ih (noDouble_tail h)
    rw [dropTrailingSlashes_cons]
    cases hX : dropTrailingSlashes cs with
    | nil => by_cases hc : c = '/' <;> simp [hc, noDoubleSlash]
    | cons d ds =>
      rw [hX] at ihcs
      rcases dropTrailing_head cs with hnil | hhd
      · rw [hnil] at hX
        exact absurd hX (by simp)
      · rw [hX] at hhd
        cases hcs : cs with
        | nil =>
          rw [hcs] at hX
          exact absurd hX (by simp [dropTrailingSlashes])
        | cons e es =>
          rw [hcs] at hhd
          have hd_eq : d = e := by simpa using hhd
          subst hd_eq
          rw [hcs] at h
          by_cases hc : c = '/'
          · have he : d ≠ '/' := noDouble_cons_head h hc
            simp [noDoubleSlash, hc, he, ihcs]
          · simp [noDoubleSlash, hc, ihcs]

theorem ensureLeading_eq_self (l : List Char) (h : noDoubleSlash l = true) :
    ensureLeadingSlash l = l := by
  cases l with
  | nil => rfl
  | cons c cs =>
    by_cases hc : c = '/'
    · subst hc
      simp only [ensureLeadingSlash]
      cases hcs : cs with
      | nil => rfl
      | cons d ds =>
        have hd : d ≠ '/' := noDouble_cons_head (hcs ▸ h) rfl
        simp [hd]
    · simp only [ensureLeadingSlash]
      split
      · rename_i tail heq
        cases heq
        exact absurd rfl hc
      · rfl

theorem collapseAux_subset :
    ∀ (l : List Char) (b : Bool) (c : Char), c ∈ collapseAux b l → c ∈ l := by
  intro l
  induction l with
  | nil => intro b c hc; simp [collapseAux] at hc
  | cons x xs ih =>
    intro b c hc
    by_cases hx : x = '/'
    · subst hx
      cases b with
      | true =>
        simp only [collapseAux, if_pos rfl] at hc
        exact List.mem_cons_of_mem _ (ih true c hc)
      | false =>
        simp only [collapseAux, if_pos rfl] at hc
        rcases List.mem_cons.mp hc with rfl | hmem
        · exact List.mem_cons_self _ _
        · exact List.mem_cons_of_mem _ (ih true c hmem)
    · simp only [collapseAux, if_neg hx] at hc
      rcases List.mem_cons.mp hc with rfl | hmem
      · exact List.mem_cons_self _ _
      · exact List.mem_cons_of_mem _ (ih false c hmem)

theorem dropTrailing_subset :
    ∀ (l : List Char) (c : Char), c ∈ dropTrailingSlashes l → c ∈ l := by
  intro l
  induction l with
  | nil => intro c hc; exact hc
  | cons x xs ih =>
    intro c hc
    rw [dropTrailingSlashes_cons] at hc
    cases hX : dropTrailingSlashes xs with
    | nil =>
      rw [hX] at hc
      by_cases hx : x = '/'
      · simp [hx] at hc
      · simp only [hx] at hc
        have hc' : c ∈ [x] := hc
        rcases List.mem_singleton.mp hc' with rfl
        exact List.mem_cons_self _ _
    | cons d ds =>
      rw [hX] at hc
      have hc' : c ∈ x :: d :: ds := hc
      rcases List.mem_cons.mp hc' with rfl | hmem
      · exact List.mem_cons_self _ _
      · exact List.mem_cons_of_mem _ (ih c (by rw [hX]; exact hmem))

theorem ensureLeading_subset :
    ∀ (l : List Char) (c : Char), c ∈ ensureLeadingSlash l → c ∈ l := by
  intro l c hc
  cases l with
  | nil => exact hc
  | cons x xs =>
    by_cases hx : x = '/'
    · subst hx
      simp only [ensureLeadingSlash] at hc
      rcases List.mem_cons.mp hc with rfl | hmem
      · exact List.mem_cons_self _ _
      · exact List.mem_cons_of_mem _ ((List.dropWhile_sublist _).mem hmem)
    · simp only [ensureLeadingSlash] at hc
      revert hc
      split
      · rename_i tail heq
        cases heq
        exact absurd rfl hx
      · exact fun hc => hc

theorem collapse_head_slash (xs : List Char) :
    (collapseAux false ('/' :: xs)).head? = some '/' := by
  simp [collapseAux]

theorem processPath_fixed (p3 : List Char) (hnd : noDoubleSlash p3 = true)
    (hlast : p3.getLast? ≠ some '/') (hstrip : stripDefaultDoc p3 = p3) :
    processPath p3 = p3 := by
  unfold processPath collapseSlashes
  rw [(collapseAux_eq_self p3 hnd).1, dropTrailing_eq_self p3 hlast,
    ensureLeading_eq_self p3 hnd, hstrip]

/-- The facts about the path after collapse + trailing-strip that the
idempotence argument needs. -/
theorem dt_facts (p : List Char) (hhead : p.head? = some '/') :
    ensureLeadingSlash (dropTrailingSlashes (collapseSlashes p)) =
      dropTrailingSlashes (collapseSlashes p) ∧
    noDoubleSlash (dropTrailingSlashes (collapseSlashes p)) = true ∧
    (dropTrailingSlashes (collapseSlashes p)).getLast? ≠ some '/' ∧
    (∀ c ∈ dropTrailingSlashes (collapseSlashes p), c ∈ p) ∧
    (dropTrailingSlashes (collapseSlashes p) ≠ [] →
      (dropTrailingSlashes (collapseSlashes p)).head? = some '/') := by
  have hndc : noDoubleSlash (collapseSlashes p) = true := collapseAux_noDouble p false
  have hnd : noDoubleSlash (dropTrailingSlashes (collapseSlashes p)) = true :=
    noDouble_dropTrailing _ hndc
  refine ⟨ensureLeading_eq_self _ hnd, hnd, dropTrailing_no_trailing _, ?_, ?_⟩
  · intro c hc
    exact collapseAux_subset p false c (dropTrailing_subset _ c hc)
  · intro hne
    rcases dropTrailing_head (collapseSlashes p) with hnil | hhd
    · exact absurd hnil hne
    · rw [hhd]
      cases p with
      | nil => exact absurd hhead (by simp)
      | cons x xs =>
        have hx : x = '/' := by simpa using hhead
        subst hx
        exact collapse_head_slash xs

theorem splitAmp_ne_nil : ∀ q : List Char, splitAmp q ≠ [] := by
  intro q
  cases q with
  | nil => simp [splitAmp]
  | cons c cs =>
    by_cases hc : c = '&'
    · simp [splitAmp, hc]
    · simp only [splitAmp, if_neg hc]
      split <;> simp

theorem splitAmp_append (xs : List Char) (hxs : ∀ x ∈ xs, x ≠ '&')
    (ys : List Char) : splitAmp (xs ++ '&' :: ys) = xs :: splitAmp ys := by
  induction xs with
  | nil => simp [splitAmp]
  | cons x xs ih =>
    have hx : ¬ (x = '&') := hxs x (List.mem_cons_self _ _)
    have ih' := ih (fun z hz => hxs z (List.mem_cons_of_mem _ hz))
    rw [List.cons_append]
    simp only [splitAmp, if_neg hx]
    rw [ih']

theorem splitAmp_no_sep (xs : List Char) (hxs : ∀ x ∈ xs, x ≠ '&') :
    splitAmp xs = [xs] := by
  induction xs with
  | nil => rfl
  | cons x xs ih =>
    have hx : ¬ (x = '&') := hxs x (List.mem_cons_self _ _)
    have ih' := ih (fun z hz => hxs z (List.mem_cons_of_mem _ hz))
    simp only [splitAmp, if_neg hx]
    rw [ih']

theorem splitAmp_mem_no_amp :
    ∀ (q g : List Char), g ∈ splitAmp q → ∀ c ∈ g, c ≠ '&' := by
  intro q
  induction q with
  | nil =>
    intro g hg c hcg
    have : g = [] := by simpa [splitAmp] using hg
    subst this
    exact absurd hcg (List.not_mem_nil c)
  | cons x xs ih =>
    intro g hg c hcg
    by_cases hx : x = '&'
    · simp only [splitAmp, if_pos hx] at hg
      rcases List.mem_cons.mp hg with rfl | hmem
      · exact absurd hcg (List.not_mem_nil c)
      · exact ih g hmem c hcg
    · simp only [splitAmp, if_neg hx] at hg
      cases hX : splitAmp xs with
      | nil => exact absurd hX (splitAmp_ne_nil xs)
      | cons g0 gs =>
        rw [hX] at hg
        have hg' : g ∈ (x :: g0) :: gs := hg
        rcases List.mem_cons.mp hg' with rfl | hmem
        · rcases List.mem_cons.mp hcg with rfl | hmem0
          · exact hx
          · exact ih g0 (by rw [hX]; exact List.mem_cons_self _ _) c hmem0
        · exact ih g (by rw [hX]; exact List.mem_cons_of_mem _ hmem) c hcg

theorem splitAmp_subset :
    ∀ (q g : List Char), g ∈ splitAmp q → ∀ c ∈ g, c ∈ q := by
  intro q
  induction q with
  | nil =>
    intro g hg c hcg
    have : g = [] := by simpa [splitAmp] using hg
    subst this
    exact absurd hcg (List.not_mem_nil c)
  | cons x xs ih =>
    intro g hg c hcg
    by_cases hx : x = '&'
    · simp only [splitAmp, if_pos hx] at hg
      rcases List.mem_cons.mp hg with rfl | hmem
      · exact absurd hcg (List.not_mem_nil c)
      · exact List.mem_cons_of_mem _ (ih g hmem c hcg)
    · simp only [splitAmp, if_neg hx] at hg
      cases hX : splitAmp xs with
      | nil => exact absurd hX (splitAmp_ne_nil xs)
      | cons g0 gs =>
        rw [hX] at hg
        have hg' : g ∈ (x :: g0) :: gs := hg
        rcases List.mem_cons.mp hg' with rfl | hmem
        · rcases List.mem_cons.mp hcg with rfl | hmem0
          · exact List.mem_cons_self _ _
          · exact List.mem_cons_of_mem _
              (ih g0 (by rw [hX]; exact List.mem_cons_self _ _) c hmem0)
        · exact List.mem_cons_of_mem _
            (ih g (by rw [hX]; exact List.mem_cons_of_mem _ hmem) c hcg)

theorem parsePairChars_enc (k v : String) (hk : ∀ c ∈ k.data, c ≠ '=') :
    parsePairChars (k.data ++ '=' :: v.data) = (k, v) := by
  unfold parsePairChars
  have h1 := takeWhile_append_cons (fun c => c ≠ '=') k.data '=' v.data
    (fun x hx => by simpa using hk x hx) (by simp)
  rw [h1.1, h1.2]

theorem serializeParams_cons (p : String × String) (ps : List (String × String))
    (hps : ps ≠ []) :
    serializeParams (p :: ps) =
      p.1.data ++ '=' :: p.2.data ++ '&' :: serializeParams ps := by
  cases ps with
  | nil => exact absurd rfl hps
  | cons q qs => rfl

theorem enc_ne_nil (k v : String) : k.data ++ '=' :: v.data ≠ [] := by
  simp

theorem parseParams_serializeParams :
    ∀ l : List (String × String), wfParams l = true →
      parseParams (serializeParams l) = l := by
  intro l
  induction l with
  | nil => intro _; rfl
  | cons p ps ih =>
    intro hwf
    simp only [wfParams, List.all_cons, Bool.and_eq_true] at hwf
    have hwf' : wfParams ps = true := hwf.2
    have hp := hwf.1
    simp only [wfPair, Bool.and_eq_true, List.all_eq_true] at hp
    have hk : ∀ c ∈ p.1.data, c ≠ '=' := by
      intro c hc
      have := hp.1 c hc
      simp only [Bool.and_eq_true, decide_eq_true_eq] at this
      exact this.2
    have hkamp : ∀ c ∈ p.1.data, c ≠ '&' := by
      intro c hc
      have := hp.1 c hc
      simp only [Bool.and_eq_true, decide_eq_true_eq] at this
      exact this.1
    have hvamp : ∀ c ∈ p.2.data, c ≠ '&' := by
      intro c hc
      have := hp.2 c hc
      simpa using this
    have hencamp : ∀ x ∈ p.1.data ++ '=' :: p.2.data, x ≠ '&' := by
      intro x hx
      rcases List.mem_append.mp hx with hx1 | hx2
      · exact hkamp x hx1
      · rcases List.mem_cons.mp hx2 with rfl | hx3
        · decide
        · exact hvamp x hx3
    cases ps with
    | nil =>
      show parseParams (p.1.data ++ '=' :: p.2.data) = [p]
      unfold parseParams
      rw [splitAmp_no_sep _ hencamp]
      simp [enc_ne_nil, parsePairChars_enc p.1 p.2 hk]
    | cons q qs =>
      rw [serializeParams_cons p (q :: qs) (by simp)]
      have hassoc : p.1.data ++ '=' :: p.2.data ++ '&' :: serializeParams (q :: qs) =
          (p.1.data ++ '=' :: p.2.data) ++ '&' :: serializeParams (q :: qs) := by
        simp [List.append_assoc]
      rw [hassoc]
      unfold parseParams
      rw [splitAmp_append _ hencamp _]
      have hq : parseParams (serializeParams (q :: qs)) = q :: qs := ih hwf'
      unfold parseParams at hq
      have hempty : (p.1.data ++ '=' :: p.2.data).isEmpty = false := by
        cases h1 : p.1.data <;> simp [h1, List.isEmpty]
      have hpred : (decide (¬ ((p.1.data ++ '=' :: p.2.data).isEmpty = true))) = true := by
        simp [hempty]
      rw [List.filter_cons, if_pos hpred, List.map_cons,
        parsePairChars_enc p.1 p.2 hk, hq]

theorem parseParams_wf (q : List Char) : wfParams (parseParams q) = true := by
  rw [wfParams, List.all_eq_true]
  intro p hp
  unfold parseParams at hp
  rcases List.mem_map.mp hp with ⟨g, hgf, rfl⟩
  have hg : g ∈ splitAmp q := List.mem_of_mem_filter hgf
  have hnoamp := splitAmp_mem_no_amp q g hg
  simp only [wfPair, Bool.and_eq_true, List.all_eq_true]
  constructor
  · intro c hc
    have hc' : c ∈ g.takeWhile (fun c => c ≠ '=') := hc
    have hmem : c ∈ g := (List.takeWhile_sublist _).mem hc'
    have hpred := List.mem_takeWhile_imp hc'
    simp only [decide_eq_true_eq] at hpred
    simp [hnoamp c hmem, hpred]
  · intro c hc
    revert hc
    show c ∈ (parsePairChars g).2.data → _
    unfold parsePairChars
    cases hdw : g.dropWhile (fun c => c ≠ '=') with
    | nil =>
      intro hc
      exact absurd hc (List.not_mem_nil c)
    | cons e v =>
      intro hc
      have hcv : c ∈ e :: v := List.mem_cons_of_mem _ hc
      have hmem : c ∈ g := (List.dropWhile_sublist _).mem (hdw ▸ hcv)
      simp [hnoamp c hmem]

theorem parseParams_chars (q : List Char) (p : String × String)
    (hp : p ∈ parseParams q) :
    (∀ c ∈ p.1.data, c ∈ q) ∧ (∀ c ∈ p.2.data, c ∈ q) := by
  unfold parseParams at hp
  rcases List.mem_map.mp hp with ⟨g, hgf, rfl⟩
  have hg : g ∈ splitAmp q := List.mem_of_mem_filter hgf
  have hsub := splitAmp_subset q g hg
  constructor
  · intro c hc
    have hc' : c ∈ g.takeWhile (fun c => c ≠ '=') := hc
    exact hsub c ((List.takeWhile_sublist _).mem hc')
  · intro c hc
    revert hc
    show c ∈ (parsePairChars g).2.data → _
    unfold parsePairChars
    cases hdw : g.dropWhile (fun c => c ≠ '=') with
    | nil =>
      intro hc
      exact absurd hc (List.not_mem_nil c)
    | cons e v =>
      intro hc
      have hcv : c ∈ e :: v := List.mem_cons_of_mem _ hc
      exact hsub c ((List.dropWhile_sublist _).mem (hdw ▸ hcv))

theorem serializeParams_chars :
    ∀ (l : List (String × String)) (c : Char), c ∈ serializeParams l →
      c = '=' ∨ c = '&' ∨ ∃ p ∈ l, c ∈ p.1.data ∨ c ∈ p.2.data := by
  intro l
  induction l with
  | nil => intro c hc; exact absurd hc (List.not_mem_nil c)
  | cons p ps ih =>
    intro c hc
    cases ps with
    | nil =>
      have hc' : c ∈ p.1.data ++ '=' :: p.2.data := hc
      rcases List.mem_append.mp hc' with h1 | h2
      · exact Or.inr (Or.inr ⟨p, List.mem_cons_self _ _, Or.inl h1⟩)
      · rcases List.mem_cons.mp h2 with rfl | h3
        · exact Or.inl rfl
        · exact Or.inr (Or.inr ⟨p, List.mem_cons_self _ _, Or.inr h3⟩)
    | cons q qs =>
      rw [serializeParams_cons p (q :: qs) (by simp)] at hc
      have hassoc : p.1.data ++ '=' :: p.2.data ++ '&' :: serializeParams (q :: qs) =
          (p.1.data ++ '=' :: p.2.data) ++ '&' :: serializeParams (q :: qs) := by
        simp [List.append_assoc]
      rw [hassoc] at hc
      rcases List.mem_append.mp hc with h1 | h2
      · rcases List.mem_append.mp h1 with h3 | h4
        · exact Or.inr (Or.inr ⟨p, List.mem_cons_self _ _, Or.inl h3⟩)
        · rcases List.mem_cons.mp h4 with rfl | h5
          · exact Or.inl rfl
          · exact Or.inr (Or.inr ⟨p, List.mem_cons_self _ _, Or.inr h5⟩)
      · rcases List.mem_cons.mp h2 with rfl | h6
        · exact Or.inr (Or.inl rfl)
        · rcases ih c h6 with h | h | ⟨r, hr, hcr⟩
          · exact Or.inl h
          · exact Or.inr (Or.inl h)
          · exact Or.inr (Or.inr ⟨r, List.mem_cons_of_mem _ hr, hcr⟩)

theorem sortParams_perm (l : List (String × String)) : List.Perm (sortParams l) l :=
  List.perm_insertionSort _ l

theorem sortParams_sorted (l : List (String × String)) :
    List.Sorted (fun p q : String × String => p.1 ≤ q.1) (sortParams l) :=
  List.sorted_insertionSort _ l

theorem sortParams_of_sorted {l : List (String × String)}
    (h : List.Sorted (fun p q : String × String => p.1 ≤ q.1) l) :
    sortParams l = l :=
  h.insertionSort_eq

theorem wfParams_perm {l1 l2 : List (String × String)} (hp : List.Perm l1 l2)
    (h : wfParams l1 = true) : wfParams l2 = true := by
  rw [wfParams, List.all_eq_true] at h ⊢
  exact fun x hx => h x (hp.mem_iff.mpr hx)

theorem parseQF_qfChars (q f : Option (List Char))
    (hq : ∀ qs, q = some qs → ∀ c ∈ qs, c ≠ '#') :
    parseQF (qfChars q f) = (q, f) := by
  cases q with
  | none =>
    cases f with
    | none => rfl
    | some fs => rfl
  | some qs =>
    have hq' : ∀ c ∈ qs, c ≠ '#' := hq qs rfl
    cases f with
    | none =>
      simp only [qfChars, List.append_nil]
      simp only [parseQF]
      rw [(takeWhile_all (fun c => c ≠ '#') qs
            (fun x hx => by simpa using hq' x hx)).1,
          (takeWhile_all (fun c => c ≠ '#') qs
            (fun x hx => by simpa using hq' x hx)).2]
    | some fs =>
      have hshape : qfChars (some qs) (some fs) = '?' :: (qs ++ '#' :: fs) := by
        simp [qfChars]
      rw [hshape]
      simp only [parseQF]
      rw [(takeWhile_append_cons (fun c => c ≠ '#') qs '#' fs
            (fun x hx => by simpa using hq' x hx) (by simp)).1,
          (takeWhile_append_cons (fun c => c ≠ '#') qs '#' fs
            (fun x hx => by simpa using hq' x hx) (by simp)).2]

theorem qfChars_split (pr : List Char) (q f : Option (List Char))
    (hpr : ∀ c ∈ pr, c ≠ '?' ∧ c ≠ '#') :
    ('/' :: (pr ++ qfChars q f)).takeWhile (fun c => c ≠ '?' && c ≠ '#') = '/' :: pr ∧
    ('/' :: (pr ++ qfChars q f)).dropWhile (fun c => c ≠ '?' && c ≠ '#') = qfChars q f := by
  have hcons : '/' :: (pr ++ qfChars q f) = ('/' :: pr) ++ qfChars q f := by simp
  have hl : ∀ x ∈ '/' :: pr, (fun c => c ≠ '?' && c ≠ '#') x = true := by
    intro x hx
    rcases List.mem_cons.mp hx with rfl | hx'
    · decide
    · simp [(hpr x hx').1, (hpr x hx').2]
  rw [hcons]
  cases q with
  | none =>
    cases f with
    | none =>
      have h0 : qfChars none none = ([] : List Char) := rfl
      rw [h0, List.append_nil]
      exact takeWhile_all _ _ hl
    | some fs =>
      have h0 : qfChars none (some fs) = '#' :: fs := rfl
      rw [h0]
      exact takeWhile_append_cons _ _ '#' fs hl (by decide)
  | some qs =>
    cases f with
    | none =>
      have h0 : qfChars (some qs) none = '?' :: qs := by
        simp [qfChars]
      rw [h0]
      exact takeWhile_append_cons _ _ '?' qs hl (by decide)
    | some fs =>
      have h0 : qfChars (some qs) (some fs) = '?' :: (qs ++ '#' :: fs) := by
        simp [qfChars]
      rw [h0]
      exact takeWhile_append_cons _ _ '?' (qs ++ '#' :: fs) hl (by decide)

theorem parse_serialize (u : UrlParts)
    (hs1 : u.scheme ≠ [])
    (hs2 : ∀ c ∈ u.scheme, c.isAlpha = true)
    (hs3 : u.scheme.map jsToLower = u.scheme)
    (hh1 : u.host ≠ [])
    (hh2 : ∀ c ∈ u.host, hostStop c = false)
    (hh3 : u.host.map jsToLower = u.host)
    (hp1 : u.path.head? = some '/')
    (hp2 : ∀ c ∈ u.path, c ≠ '?' ∧ c ≠ '#')
    (hq : ∀ qs, u.query = some qs → ∀ c ∈ qs, c ≠ '#') :
    parseUrlAux (serializeParts u) = some u := by
  obtain ⟨sch, host, path, query, frag⟩ := u
  simp only at hs1 hs2 hs3 hh1 hh2 hh3 hp1 hp2 hq
  cases path with
  | nil => exact absurd hp1 (by simp)
  | cons p0 pr =>
  have hp0 : p0 = '/' := by simpa using hp1
  subst hp0
  have hserial : serializeParts ⟨sch, host, '/' :: pr, query, frag⟩ =
      sch ++ ':' :: '/' :: '/' :: (host ++ '/' :: (pr ++ qfChars query frag)) := by
    simp [serializeParts, List.append_assoc]
  rw [hserial]
  have hsw := takeWhile_append_cons Char.isAlpha sch ':'
    ('/' :: '/' :: (host ++ '/' :: (pr ++ qfChars query frag))) hs2 (by decide)
  have hschE : sch.isEmpty = false := by
    cases sch
    · exact absurd rfl hs1
    · rfl
  have hhw := takeWhile_append_cons (fun c => ¬ hostStop c) host '/'
    (pr ++ qfChars query frag)
    (fun x hx => by simp [hh2 x hx]) (by decide)
  have hhostE : host.isEmpty = false := by
    cases host
    · exact absurd rfl hh1
    · rfl
  have hpr : ∀ c ∈ pr, c ≠ '?' ∧ c ≠ '#' :=
    fun c hc => hp2 c (List.mem_cons_of_mem _ hc)
  have hpw := qfChars_split pr query frag hpr
  simp only [parseUrlAux]
  rw [hsw.1, hsw.2]
  simp only [hschE, Bool.false_eq_true, if_false]
  rw [hhw.1, hhw.2]
  simp only [hhostE, Bool.false_eq_true, if_false]
  rw [hpw.1, hpw.2, parseQF_qfChars query frag hq, hs3, hh3]

theorem finalStripSlash_eq_self (l : List Char) (h : l.getLast? ≠ some '/') :
    finalStripSlash l = l := by
  unfold finalStripSlash
  split
  · rename_i heq
    exact absurd heq h
  · rfl

theorem getLast_cons_ne (c : Char) (l : List Char) (hc : c ≠ '/')
    (hl : l.getLast? ≠ some '/') : (c :: l).getLast? ≠ some '/' := by
  cases l with
  | nil => simp [hc]
  | cons x xs =>
    rw [List.getLast?_cons_cons]
    exact hl

theorem serializeParts_getLast (u : UrlParts) (hpne : u.path ≠ []) :
    (serializeParts u).getLast? =
      (match u.frag with
       | some f => ('#' :: f).getLast?
       | none =>
         match u.query with
         | some qs => ('?' :: qs).getLast?
         | none => u.path.getLast?) := by
  obtain ⟨sch, host, path, query, frag⟩ := u
  cases frag with
  | some f =>
    cases query with
    | some qs =>
      show (sch ++ ':' :: '/' :: '/' :: host ++ path ++
        (('?' :: qs) ++ '#' :: f)).getLast? = ('#' :: f).getLast?
      rw [show sch ++ ':' :: '/' :: '/' :: host ++ path ++ (('?' :: qs) ++ '#' :: f) =
        (sch ++ ':' :: '/' :: '/' :: host ++ path ++ ('?' :: qs)) ++ '#' :: f from
        (List.append_assoc _ _ _).symm]
      rw [List.getLast?_append_cons]
    | none =>
      show (sch ++ ':' :: '/' :: '/' :: host ++ path ++
        (([] : List Char) ++ '#' :: f)).getLast? = ('#' :: f).getLast?
      rw [List.nil_append, List.getLast?_append_cons]
  | none =>
    cases query with
    | some qs =>
      show (sch ++ ':' :: '/' :: '/' :: host ++ path ++
        (('?' :: qs) ++ ([] : List Char))).getLast? = ('?' :: qs).getLast?
      rw [List.append_nil, List.getLast?_append_cons]
    | none =>
      show (sch ++ ':' :: '/' :: '/' :: host ++ path ++
        (([] : List Char) ++ ([] : List Char))).getLast? = path.getLast?
      rw [List.nil_append, List.append_nil,
        List.getLast?_append_of_ne_nil _ hpne]

theorem normalizeQuery_none (cfg : NormCfg) :
    normalizeQuery cfg none = none := by
  unfold normalizeQuery
  by_cases hiq : cfg.ignoreQueryParams = true
  · rw [if_pos hiq]
  · rw [if_neg hiq]
    rfl

theorem normalizeQuery_idem (cfg : NormCfg) (q : Option (List Char)) :
    normalizeQuery cfg (normalizeQuery cfg q) = normalizeQuery cfg q := by
  by_cases hiq : cfg.ignoreQueryParams = true
  · show normalizeQuery cfg (normalizeQuery cfg q) = normalizeQuery cfg q
    rw [show normalizeQuery cfg q = none by unfold normalizeQuery; rw [if_pos hiq],
      normalizeQuery_none]
  · have hwf : wfParams (sortParams (parseParams (q.getD []))) = true :=
      wfParams_perm (sortParams_perm _).symm (parseParams_wf _)
    have hrt : parseParams (serializeParams (sortParams (parseParams (q.getD [])))) =
        sortParams (parseParams (q.getD [])) :=
      parseParams_serializeParams _ hwf
    have hq1 : normalizeQuery cfg q =
        (if (serializeParams (sortParams (parseParams (q.getD [])))).isEmpty then none
         else some (serializeParams (sortParams (parseParams (q.getD []))))) := by
      unfold normalizeQuery
      rw [if_neg hiq]
    by_cases he : (serializeParams (sortParams (parseParams (q.getD [])))).isEmpty = true
    · rw [hq1, if_pos he, normalizeQuery_none]
    · rw [hq1, if_neg he]
      unfold normalizeQuery
      rw [if_neg hiq]
      have hgd : (some (serializeParams (sortParams (parseParams (q.getD []))))).getD
          ([] : List Char) = serializeParams (sortParams (parseParams (q.getD []))) := rfl
      rw [hgd, hrt, sortParams_of_sorted (sortParams_sorted _), if_neg he]

theorem parseQF_no_hash (r : List Char) :
    ∀ qs, (parseQF r).1 = some qs → ∀ c ∈ qs, c ≠ '#' := by
  intro qs hqs c hc
  unfold parseQF at hqs
  split at hqs
  · rename_i rr
    split at hqs
    · simp only at hqs
      injection hqs with hqs
      subst hqs
      have := List.mem_takeWhile_imp hc
      simpa using this
    · simp only at hqs
      injection hqs with hqs
      subst hqs
      have := List.mem_takeWhile_imp hc
      simpa using this
  · exact Option.noConfusion hqs
  · exact Option.noConfusion hqs

theorem parseUrlAux_wf (l : List Char) (u : UrlParts)
    (hp : parseUrlAux l = some u) :
    u.scheme ≠ [] ∧ (∀ c ∈ u.scheme, c.isAlpha = true) ∧
    u.scheme.map jsToLower = u.scheme ∧
    u.host ≠ [] ∧ (∀ c ∈ u.host, hostStop c = false) ∧
    u.host.map jsToLower = u.host ∧
    u.path.head? = some '/' ∧ (∀ c ∈ u.path, c ≠ '?' ∧ c ≠ '#') ∧
    (∀ qs, u.query = some qs → ∀ c ∈ qs, c ≠ '#') := by
  have hschemeFacts : ∀ m : List Char, m ≠ [] → (∀ c ∈ m, c.isAlpha = true) →
      m.map jsToLower ≠ [] ∧ (∀ c ∈ m.map jsToLower, c.isAlpha = true) ∧
      (m.map jsToLower).map jsToLower = m.map jsToLower := by
    intro m hm ha
    refine ⟨by simpa using hm, ?_, map_jsToLower_idem m⟩
    intro c hc
    rcases List.mem_map.mp hc with ⟨c0, hc0, rfl⟩
    exact jsToLower_isAlpha c0 (ha c0 hc0)
  have hhostFacts : ∀ m : List Char, m ≠ [] → (∀ c ∈ m, hostStop c = false) →
      m.map jsToLower ≠ [] ∧ (∀ c ∈ m.map jsToLower, hostStop c = false) ∧
      (m.map jsToLower).map jsToLower = m.map jsToLower := by
    intro m hm hh
    refine ⟨by simpa using hm, ?_, map_jsToLower_idem m⟩
    intro c hc
    rcases List.mem_map.mp hc with ⟨c0, hc0, rfl⟩
    exact jsToLower_hostStop c0 (hh c0 hc0)
  simp only [parseUrlAux] at hp
  split at hp
  · exact Option.noConfusion hp
  · rename_i hschE
    have hS : (l.takeWhile Char.isAlpha) ≠ [] := by
      intro h0
      exact hschE (by rw [h0]; rfl)
    have hSa : ∀ c ∈ l.takeWhile Char.isAlpha, c.isAlpha = true :=
      fun c hc => List.mem_takeWhile_imp hc
    split at hp
    · rename_i r2 heq
      split at hp
      · exact Option.noConfusion hp
      · rename_i hhostE
        have hH : (r2.takeWhile (fun c => ¬ hostStop c)) ≠ [] := by
          intro h0
          exact hhostE (by rw [h0]; rfl)
        have hHs : ∀ c ∈ r2.takeWhile (fun c => ¬ hostStop c), hostStop c = false := by
          intro c hc
          have := List.mem_takeWhile_imp hc
          simpa using this
        split at hp
        · rename_i tail heq3
          injection hp with hp
          subst hp
          rw [heq3]
          obtain ⟨e1, e2, e3⟩ := hschemeFacts _ hS hSa
          obtain ⟨f1, f2, f3⟩ := hhostFacts _ hH hHs
          refine ⟨e1, e2, e3, f1, f2, f3, ?_, ?_, ?_⟩
          · show (('/' :: tail).takeWhile (fun c => c ≠ '?' && c ≠ '#')).head? = some '/'
            rw [List.takeWhile_cons_of_pos (by decide)]
            rfl
          · intro c hc
            have := List.mem_takeWhile_imp hc
            simp only [Bool.and_eq_true, decide_eq_true_eq] at this
            exact this
          · exact fun qs hqs => parseQF_no_hash _ qs hqs
        · injection hp with hp
          subst hp
          obtain ⟨e1, e2, e3⟩ := hschemeFacts _ hS hSa
          obtain ⟨f1, f2, f3⟩ := hhostFacts _ hH hHs
          refine ⟨e1, e2, e3, f1, f2, f3, rfl, ?_, ?_⟩
          · intro c hc
            have : c = '/' := by simpa using hc
            subst this
            exact ⟨by decide, by decide⟩
          · exact fun qs hqs => parseQF_no_hash _ qs hqs
    · exact Option.noConfusion hp

theorem normalizeQuery_no_hash (cfg : NormCfg) (q : Option (List Char))
    (hq : ∀ qs, q = some qs → ∀ c ∈ qs, c ≠ '#') :
    ∀ qs, normalizeQuery cfg q = some qs → ∀ c ∈ qs, c ≠ '#' := by
  intro qs hqs c hc
  unfold normalizeQuery at hqs
  by_cases hiq : cfg.ignoreQueryParams = true
  · rw [if_pos hiq] at hqs
    exact Option.noConfusion hqs
  · rw [if_neg hiq] at hqs
    simp only at hqs
    split at hqs
    · exact Option.noConfusion hqs
    · injection hqs with hqs
      subst hqs
      rcases serializeParams_chars _ c hc with h | h | ⟨p, hpmem, hcp⟩
      · subst h; decide
      · subst h; decide
      · have hpmem' : p ∈ parseParams (q.getD []) :=
          ((sortParams_perm _).mem_iff).mp hpmem
        have hchars := parseParams_chars _ p hpmem'
        have hcq : c ∈ q.getD [] := by
          rcases hcp with h1 | h2
          · exact hchars.1 c h1
          · exact hchars.2 c h2
        cases hq0 : q with
        | none =>
          rw [hq0] at hcq
          exact absurd hcq (List.not_mem_nil c)
        | some qs0 =>
          rw [hq0] at hcq
          exact hq qs0 hq0 c hcq

theorem parse_hostonly (sch host : List Char)
    (hs1 : sch ≠ []) (hs2 : ∀ c ∈ sch, c.isAlpha = true)
    (hs3 : sch.map jsToLower = sch)
    (hh1 : host ≠ []) (hh2 : ∀ c ∈ host, hostStop c = false)
    (hh3 : host.map jsToLower = host) :
    parseUrlAux (sch ++ ':' :: '/' :: '/' :: host) =
      some ⟨sch, host, ['/'], none, none⟩ := by
  have hsw := takeWhile_append_cons Char.isAlpha sch ':' ('/' :: '/' :: host)
    hs2 (by decide)
  have hschE : sch.isEmpty = false := by
    cases sch
    · exact absurd rfl hs1
    · rfl
  have hhw := takeWhile_all (fun c => ¬ hostStop c) host
    (fun x hx => by simp [hh2 x hx])
  have hhostE : host.isEmpty = false := by
    cases host
    · exact absurd rfl hh1
    · rfl
  simp only [parseUrlAux]
  rw [hsw.1, hsw.2]
  simp only [hschE, Bool.false_eq_true, if_false]
  rw [hhw.1, hhw.2]
  simp only [hhostE, Bool.false_eq_true, if_false]
  rw [hs3, hh3]
  rfl

theorem eq_of_perm_sorted_nodupkeys :
    ∀ (l1 l2 : List (String × String)), List.Perm l1 l2 →
      List.Sorted (fun p q : String × String => p.1 ≤ q.1) l1 →
      List.Sorted (fun p q : String × String => p.1 ≤ q.1) l2 →
      (l1.map Prod.fst).Nodup → l1 = l2 := by
  intro l1
  induction l1 with
  | nil =>
    intro l2 hp _ _ _
    exact (hp.symm.eq_nil).symm
  | cons p ps ih =>
    intro l2 hp hs1 hs2 hnd
    cases l2 with
    | nil => exact absurd hp.eq_nil (by simp)
    | cons q qs =>
      simp only [List.map_cons, List.nodup_cons] at hnd
      obtain ⟨hnotin, hndtail⟩ := hnd
      obtain ⟨hle1, hs1'⟩ := List.sorted_cons.mp hs1
      obtain ⟨hle2, hs2'⟩ := List.sorted_cons.mp hs2
      have hpq : p = q := by
        by_contra hne
        have hpmem : p ∈ q :: qs := hp.mem_iff.mp (List.mem_cons_self _ _)
        have hqmem : q ∈ p :: ps := hp.mem_iff.mpr (List.mem_cons_self _ _)
        have hpq1 : p ∈ qs := by
          rcases List.mem_cons.mp hpmem with h | h
          · exact absurd h hne
          · exact h
        have hqp1 : q ∈ ps := by
          rcases List.mem_cons.mp hqmem with h | h
          · exact absurd h.symm hne
          · exact h
        have hkey : p.1 = q.1 := le_antisymm (hle1 q hqp1) (hle2 p hpq1)
        refine hnotin ?_
        rw [hkey]
        exact List.mem_map_of_mem Prod.fst hqp1
      subst hpq
      have hperm' : List.Perm ps qs := hp.cons_inv
      rw [ih qs hperm' hs1' hs2' hndtail]

/-- C8: query-parameter canonicalization.  Unless `ignoreQueryParams` is set,
`normalizeUrl` re-serializes the query with parameters sorted by key, so two
URLs that agree on scheme, host, path and fragment and whose query-parameter
lists are permutations of one another normalize to the same string — PROVIDED
the parameter keys are pairwise distinct.  (With duplicate keys the sort is
stable and order survives; see the counterexample.) -/
theorem normalizeUrl_query_perm (cfg : NormCfg) (s1 s2 : String) (u1 u2 : UrlParts)
    (h1 : parseUrlAux s1.data = some u1) (h2 : parseUrlAux s2.data = some u2)
    (hsch : u1.scheme = u2.scheme) (hhost : u1.host = u2.host)
    (hpath : u1.path = u2.path) (hfrag : u1.frag = u2.frag)
    (hperm : List.Perm (parseParams (u1.query.getD []))
      (parseParams (u2.query.getD [])))
    (hnodup : ((parseParams (u1.query.getD [])).map Prod.fst).Nodup) :
    normalizeUrl cfg s1 = normalizeUrl cfg s2 := by
  have hq : normalizeQuery cfg u1.query = normalizeQuery cfg u2.query := by
    by_cases hiq : cfg.ignoreQueryParams = true
    · unfold normalizeQuery
      rw [if_pos hiq, if_pos hiq]
    · have hsorteq : sortParams (parseParams (u1.query.getD [])) =
          sortParams (parseParams (u2.query.getD [])) := by
        refine eq_of_perm_sorted_nodupkeys _ _ ?_
          (sortParams_sorted _) (sortParams_sorted _) ?_
        · exact ((sortParams_perm _).trans hperm).trans (sortParams_perm _).symm
        · exact (((sortParams_perm _).map Prod.fst).nodup_iff).mpr hnodup
      unfold normalizeQuery
      rw [if_neg hiq, if_neg hiq, hsorteq]
  have e1 : normalizeChars cfg s1.data = finalStripSlash (serializeParts
      { scheme := u1.scheme, host := u1.host.map jsToLower,
        path := setPathname (processPath u1.path),
        query := normalizeQuery cfg u1.query,
        frag := if cfg.ignoreHashFragments then none else u1.frag }) := by
    unfold normalizeChars
    rw [h1]
  have e2 : normalizeChars cfg s2.data = finalStripSlash (serializeParts
      { scheme := u2.scheme, host := u2.host.map jsToLower,
        path := setPathname (processPath u2.path),
        query := normalizeQuery cfg u2.query,
        frag := if cfg.ignoreHashFragments then none else u2.frag }) := by
    unfold normalizeChars
    rw [h2]
  refine congrArg String.mk ?_
  show normalizeChars cfg s1.data = normalizeChars cfg s2.data
  rw [e1, e2, hsch, hhost, hpath, hfrag, hq]

/-- C8 witness: the claim's concrete instance — `http://h/p?b=2&a=1` and
`http://h/p?a=1&b=2` normalize identically (distinct keys `a`, `b`). -/
theorem normalizeUrl_query_perm_witness :
    normalizeUrl ⟨false, false⟩ "http://h/p?b=2&a=1" =
      normalizeUrl ⟨false, false⟩ "http://h/p?a=1&b=2" :=
  normalizeUrl_query_perm ⟨false, false⟩ "http://h/p?b=2&a=1" "http://h/p?a=1&b=2"
    ⟨"http".data, "h".data, "/p".data, some "b=2&a=1".data, none⟩
    ⟨"http".data, "h".data, "/p".data, some "a=1&b=2".data, none⟩
    (by decide) (by decide) rfl rfl rfl rfl (by decide) (by decide)

/-- C8 counterexample: with DUPLICATE keys the claim fails — `?a=1&a=2` and
`?a=2&a=1` are permutations of each other's parameter lists, yet the stable
sort preserves their order and the two URLs normalize differently. -/
theorem normalizeUrl_query_perm_dup_keys :
    List.Perm (parseParams ("a=1&a=2".data)) (parseParams ("a=2&a=1".data)) ∧
    normalizeUrl ⟨false, false⟩ "http://h/p?a=1&a=2" ≠
      normalizeUrl ⟨false, false⟩ "http://h/p?a=2&a=1" := by
  have hs1 : sortParams [(("a" : String), ("1" : String)), ("a", "2")] =
      [("a", "1"), ("a", "2")] := by
    unfold sortParams
    simp [List.insertionSort, List.orderedInsert]
  have hs2 : sortParams [(("a" : String), ("2" : String)), ("a", "1")] =
      [("a", "2"), ("a", "1")] := by
    unfold sortParams
    simp [List.insertionSort, List.orderedInsert]
  have hq1 : normalizeQuery ⟨false, false⟩ (some "a=1&a=2".data) =
      some "a=1&a=2".data := by
    unfold normalizeQuery
    rw [if_neg (by decide)]
    rw [show parseParams ((some "a=1&a=2".data).getD []) = [("a", "1"), ("a", "2")]
      from by decide, hs1]
    rfl
  have hq2 : normalizeQuery ⟨false, false⟩ (some "a=2&a=1".data) =
      some "a=2&a=1".data := by
    unfold normalizeQuery
    rw [if_neg (by decide)]
    rw [show parseParams ((some "a=2&a=1".data).getD []) = [("a", "2"), ("a", "1")]
      from by decide, hs2]
    rfl
  have e1 : normalizeUrl ⟨false, false⟩ "http://h/p?a=1&a=2" =
      "http://h/p?a=1&a=2" := by
    show (⟨normalizeChars ⟨false, false⟩ "http://h/p?a=1&a=2".data⟩ : String) = _
    unfold normalizeChars
    rw [show parseUrlAux "http://h/p?a=1&a=2".data =
      some ⟨"http".data, "h".data, "/p".data, some "a=1&a=2".data, none⟩ from by decide]
    show (⟨finalStripSlash (serializeParts
      { scheme := "http".data, host := "h".data.map jsToLower,
        path := setPathname (processPath "/p".data),
        query := normalizeQuery ⟨false, false⟩ (some "a=1&a=2".data),
        frag := if (⟨false, false⟩ : NormCfg).ignoreHashFragments then none
          else none })⟩ : String) = _
    rw [hq1]
    decide
  have e2 : normalizeUrl ⟨false, false⟩ "http://h/p?a=2&a=1" =
      "http://h/p?a=2&a=1" := by
    show (⟨normalizeChars ⟨false, false⟩ "http://h/p?a=2&a=1".data⟩ : String) = _
    unfold normalizeChars
    rw [show parseUrlAux "http://h/p?a=2&a=1".data =
      some ⟨"http".data, "h".data, "/p".data, some "a=2&a=1".data, none⟩ from by decide]
    show (⟨finalStripSlash (serializeParts
      { scheme := "http".data, host := "h".data.map jsToLower,
        path := setPathname (processPath "/p".data),
        query := normalizeQuery ⟨false, false⟩ (some "a=2&a=1".data),
        frag := if (⟨false, false⟩ : NormCfg).ignoreHashFragments then none
          else none })⟩ : String) = _
    rw [hq2]
    decide
  refine ⟨by decide, ?_⟩
  rw [e1, e2]
  decide

/-- C3: idempotence of `UrlQueue.normalizeUrl`.  One normalization pass is a
fixed point of the next for every input on which the default-document strip
does not fire on the processed path and the final trailing-slash strip cannot
eat a `/` ending the kept fragment or query (`stripSafe`); strings that fail
to parse are returned unchanged and are trivially fixed.  UNCONDITIONAL
idempotence, as claimed, is false: see the counterexample, where the
default-document rule fires again on its own output. -/
theorem normalizeUrl_idem (cfg : NormCfg) (s : String)
    (h : stripSafe cfg s = true) :
    normalizeUrl cfg (normalizeUrl cfg s) = normalizeUrl cfg s := by
  refine congrArg String.mk ?_
  show normalizeChars cfg (normalizeChars cfg s.data) = normalizeChars cfg s.data
  cases hp : parseUrlAux s.data with
  | none =>
    have h1 : normalizeChars cfg s.data = s.data := by
      unfold normalizeChars
      rw [hp]
    rw [h1]
    exact h1
  | some u =>
    obtain ⟨hs1, hs2, hs3, hh1, hh2, hh3, hph, hpm, hqh⟩ := parseUrlAux_wf _ u hp
    unfold stripSafe at h
    rw [hp] at h
    simp only [Bool.and_eq_true, beq_iff_eq] at h
    obtain ⟨hstrip, hrest⟩ := h
    obtain ⟨hEL, hND, hNT, hSub, hHd⟩ := dt_facts u.path hph
    rw [hEL] at hstrip
    have hpp : processPath u.path = dropTrailingSlashes (collapseSlashes u.path) := by
      unfold processPath
      rw [hEL, hstrip]
    have hsetp : ∀ m : List Char, m ≠ [] → setPathname m = m := by
      intro m hm
      cases m with
      | nil => exact absurd rfl hm
      | cons a as => rfl
    have hpne : setPathname (processPath u.path) ≠ [] := by
      rw [hpp]
      by_cases hd0 : dropTrailingSlashes (collapseSlashes u.path) = []
      · rw [hd0]
        simp [setPathname]
      · rw [hsetp _ hd0]
        exact hd0
    have hpath'h : (setPathname (processPath u.path)).head? = some '/' := by
      rw [hpp]
      by_cases hd0 : dropTrailingSlashes (collapseSlashes u.path) = []
      · rw [hd0]
        rfl
      · rw [hsetp _ hd0]
        exact hHd hd0
    have hpath'm : ∀ c ∈ setPathname (processPath u.path), c ≠ '?' ∧ c ≠ '#' := by
      rw [hpp]
      by_cases hd0 : dropTrailingSlashes (collapseSlashes u.path) = []
      · rw [hd0]
        intro c hc
        have hcs : c = '/' := by simpa [setPathname] using hc
        subst hcs
        exact ⟨by decide, by decide⟩
      · rw [hsetp _ hd0]
        intro c hc
        exact hpm c (hSub c hc)
    have hq' : ∀ qs, normalizeQuery cfg u.query = some qs → ∀ c ∈ qs, c ≠ '#' :=
      normalizeQuery_no_hash cfg u.query hqh
    have hPidem : setPathname (processPath (setPathname (processPath u.path))) =
        setPathname (processPath u.path) := by
      rw [hpp]
      by_cases hd0 : dropTrailingSlashes (collapseSlashes u.path) = []
      · have hA : setPathname ([] : List Char) = ['/'] := rfl
        have hB : processPath ['/'] = ([] : List Char) := by decide
        rw [hd0, hA, hB, hA]
      · rw [hsetp _ hd0, processPath_fixed _ hND hNT hstrip, hsetp _ hd0]
    have hn1 : normalizeChars cfg s.data = finalStripSlash (serializeParts
        { scheme := u.scheme, host := u.host.map jsToLower,
          path := setPathname (processPath u.path),
          query := normalizeQuery cfg u.query,
          frag := if cfg.ignoreHashFragments then none else u.frag }) := by
      unfold normalizeChars
      rw [hp]
    rw [hh3] at hn1
    rw [hn1]
    cases hF : (if cfg.ignoreHashFragments then none else u.frag) with
    | some f =>
      rw [hF] at hrest
      simp only [Bool.not_eq_true', beq_eq_false_iff_ne] at hrest
      have hiHF : cfg.ignoreHashFragments = false := by
        cases hxx : cfg.ignoreHashFragments with
        | false => rfl
        | true =>
          rw [hxx] at hF
          simp at hF
      have hlast : (serializeParts
          { scheme := u.scheme, host := u.host,
            path := setPathname (processPath u.path),
            query := normalizeQuery cfg u.query,
            frag := some f }).getLast? ≠ some '/' := by
        rw [serializeParts_getLast _ hpne]
        show ('#' :: f).getLast? ≠ some '/'
        exact getLast_cons_ne '#' f (by decide) hrest
      have hfsp := finalStripSlash_eq_self _ hlast
      have hps := parse_serialize
        { scheme := u.scheme, host := u.host,
          path := setPathname (processPath u.path),
          query := normalizeQuery cfg u.query, frag := some f }
        hs1 hs2 hs3 hh1 hh2 hh3 hpath'h hpath'm hq'
      have hsecond : normalizeChars cfg (serializeParts
          { scheme := u.scheme, host := u.host,
            path := setPathname (processPath u.path),
            query := normalizeQuery cfg u.query, frag := some f }) =
          finalStripSlash (serializeParts
          { scheme := u.scheme, host := u.host.map jsToLower,
            path := setPathname (processPath (setPathname (processPath u.path))),
            query := normalizeQuery cfg (normalizeQuery cfg u.query),
            frag := if cfg.ignoreHashFragments then none else some f }) := by
        unfold normalizeChars
        rw [hps]
      have hFif : (if cfg.ignoreHashFragments then none else some f) =
          (some f : Option (List Char)) := by
        rw [hiHF]
        rfl
      rw [hfsp, hsecond, hh3, hPidem, normalizeQuery_idem, hFif]
      exact hfsp
    | none =>
      rw [hF] at hrest
      simp only [] at hrest
      cases hQ : normalizeQuery cfg u.query with
      | some qs =>
        rw [hQ] at hrest
        simp only [Bool.not_eq_true', beq_eq_false_iff_ne] at hrest
        have hq2 : ∀ qs', (some qs : Option (List Char)) = some qs' →
            ∀ c ∈ qs', c ≠ '#' := by
          intro qs' h0
          injection h0 with h0
          subst h0
          exact hq' qs hQ
        have hlast : (serializeParts
            { scheme := u.scheme, host := u.host,
              path := setPathname (processPath u.path),
              query := some qs, frag := none }).getLast? ≠ some '/' := by
          rw [serializeParts_getLast _ hpne]
          show ('?' :: qs).getLast? ≠ some '/'
          exact getLast_cons_ne '?' qs (by decide) hrest
        have hfsp := finalStripSlash_eq_self _ hlast
        have hps := parse_serialize
          { scheme := u.scheme, host := u.host,
            path := setPathname (processPath u.path),
            query := some qs, frag := none }
          hs1 hs2 hs3 hh1 hh2 hh3 hpath'h hpath'm hq2
        have hsecond : normalizeChars cfg (serializeParts
            { scheme := u.scheme, host := u.host,
              path := setPathname (processPath u.path),
              query := some qs, frag := none }) =
            finalStripSlash (serializeParts
            { scheme := u.scheme, host := u.host.map jsToLower,
              path := setPathname (processPath (setPathname (processPath u.path))),
              query := normalizeQuery cfg (some qs),
              frag := if cfg.ignoreHashFragments then none else none }) := by
          unfold normalizeChars
          rw [hps]
        have hQi : normalizeQuery cfg (some qs) = some qs := by
          rw [← hQ]
          exact normalizeQuery_idem cfg u.query
        rw [hfsp, hsecond, hh3, hPidem, hQi, ite_self]
        exact hfsp
      | none =>
        by_cases hd0 : dropTrailingSlashes (collapseSlashes u.path) = []
        · have hRpath : setPathname (processPath u.path) = ['/'] := by
            rw [hpp, hd0]
            rfl
          rw [hRpath]
          have hshape : serializeParts
              { scheme := u.scheme, host := u.host, path := ['/'],
                query := none, frag := none } =
              (u.scheme ++ ':' :: '/' :: '/' :: u.host) ++ ['/'] := by
            show u.scheme ++ ':' :: '/' :: '/' :: u.host ++ ['/'] ++
              (([] : List Char) ++ ([] : List Char)) = _
            simp [List.append_assoc]
          have hdrop : finalStripSlash
              ((u.scheme ++ ':' :: '/' :: '/' :: u.host) ++ ['/']) =
              u.scheme ++ ':' :: '/' :: '/' :: u.host := by
            unfold finalStripSlash
            rw [List.getLast?_concat]
            show ((u.scheme ++ ':' :: '/' :: '/' :: u.host) ++ ['/']).dropLast =
              u.scheme ++ ':' :: '/' :: '/' :: u.host
            rw [List.dropLast_concat]
          rw [hshape, hdrop]
          have hph2 := parse_hostonly u.scheme u.host hs1 hs2 hs3 hh1 hh2 hh3
          have hsecond : normalizeChars cfg
              (u.scheme ++ ':' :: '/' :: '/' :: u.host) =
              finalStripSlash (serializeParts
              { scheme := u.scheme, host := u.host.map jsToLower,
                path := setPathname (processPath ['/']),
                query := normalizeQuery cfg none,
                frag := if cfg.ignoreHashFragments then none else none }) := by
            unfold normalizeChars
            rw [hph2]
          rw [hsecond, hh3, show processPath ['/'] = ([] : List Char) from by decide,
            show setPathname ([] : List Char) = ['/'] from rfl,
            normalizeQuery_none, ite_self, hshape, hdrop]
        · have hRpath : setPathname (processPath u.path) =
              dropTrailingSlashes (collapseSlashes u.path) := by
            rw [hpp, hsetp _ hd0]
          have hlast : (serializeParts
              { scheme := u.scheme, host := u.host,
                path := setPathname (processPath u.path),
                query := none, frag := none }).getLast? ≠ some '/' := by
            rw [serializeParts_getLast _ hpne]
            show (setPathname (processPath u.path)).getLast? ≠ some '/'
            rw [hRpath]
            exact hNT
          have hfsp := finalStripSlash_eq_self _ hlast
          have hq0 : ∀ qs', (none : Option (List Char)) = some qs' →
              ∀ c ∈ qs', c ≠ '#' := by
            intro qs' h0
            exact Option.noConfusion h0
          have hps := parse_serialize
            { scheme := u.scheme, host := u.host,
              path := setPathname (processPath u.path),
              query := none, frag := none }
            hs1 hs2 hs3 hh1 hh2 hh3 hpath'h hpath'm hq0
          have hsecond : normalizeChars cfg (serializeParts
              { scheme := u.scheme, host := u.host,
                path := setPathname (processPath u.path),
                query := none, frag := none }) =
              finalStripSlash (serializeParts
              { scheme := u.scheme, host := u.host.map jsToLower,
                path := setPathname (processPath (setPathname (processPath u.path))),
                query := normalizeQuery cfg none,
                frag := if cfg.ignoreHashFragments then none else none }) := by
            unfold normalizeChars
            rw [hps]
          rw [hfsp, hsecond, hh3, hPidem, normalizeQuery_none, ite_self]
          exact hfsp

/-- C3 witness: on a `stripSafe` input with repeated separators, a trailing
slash, a query and a fragment, normalization is idempotent. -/
theorem normalizeUrl_idem_witness :
    stripSafe ⟨false, false⟩ "http://h/a//b/?x=1#sec" = true ∧
    normalizeUrl ⟨false, false⟩
        (normalizeUrl ⟨false, false⟩ "http://h/a//b/?x=1#sec") =
      normalizeUrl ⟨false, false⟩ "http://h/a//b/?x=1#sec" :=
  ⟨by decide, normalizeUrl_idem ⟨false, false⟩ "http://h/a//b/?x=1#sec" (by decide)⟩

/-- C3 counterexample: normalization is NOT idempotent.  The default-document
strip leaves a path on which it fires again: one pass sends
`http://h/index.php/index.php` to `http://h/index.php`, and the next pass
sends that to `http://h`. -/
theorem normalizeUrl_not_idem :
    normalizeUrl ⟨false, false⟩ (normalizeUrl ⟨false, false⟩
      "http://h/index.php/index.php") ≠
    normalizeUrl ⟨false, false⟩ "http://h/index.php/index.php" := by decide

end AlgoCrawl
